import Mathlib

/-!
# Verification of the multiyt-dlp core orchestration engine

A shallow embedding, in Lean 4, of the core components of the `multiyt-dlp`
desktop media-acquisition controller (Rust, under `src-tauri/src/`):

* the job manager actor (`core/manager.rs`): job table, FIFO queue,
  persistence registry, concurrency counters, message handlers;
* the URL history normaliser (`core/history.rs`: `HistoryManager::normalize_url`),
  together with a model of the behaviour of the `url` crate's WHATWG parser on
  hierarchical `scheme://host/path?query#fragment` URLs;
* the `start_download` command (`commands/downloader.rs`): probe entries,
  history-based deduplication, job admission;
* the transport engine (`core/transport/engine.rs`) and its retry policy
  (`core/transport/retry.rs`): chunk partitioning, per-chunk retry loop,
  failure cleanup;
* the per-job worker (`core/process.rs`): `robust_move_file`, the conflict
  branch of `run_download_process`, and the one-shot filesystem-sanitisation
  retry loop;
* the probe call sites (`commands/downloader.rs`): concurrency of probe
  subprocess invocations.

Rust `HashMap`s are modelled as association lists with natural-number keys
standing in for UUIDs; `f32` percentages are modelled as rationals (none of the
verified properties depend on floating-point rounding); effects (process kills,
event emissions, worker spawns) are modelled as explicit event lists.
-/

namespace MultiYtDlp

/-! ## Generic list/string helpers -/

/-- Is `pat` a prefix of `xs`? (character lists) -/
def listStartsWith : List Char → List Char → Bool
  | [], _ => true
  | _ :: _, [] => false
  | a :: as, b :: bs => a = b && listStartsWith as bs

/-- Does `pat` occur as a contiguous substring of `xs`? -/
def listContainsSub (pat : List Char) : List Char → Bool
  | [] => listStartsWith pat []
  | c :: rest => listStartsWith pat (c :: rest) || listContainsSub pat rest

/-- Substring test on strings, mirroring Rust `str::contains` with a literal
pattern. -/
def strContains (s pat : String) : Bool :=
  listContainsSub pat.data s.data

/-- Association-list lookup (first match), mirroring `HashMap::get`. -/
def lookupEntry {α : Type} : List (Nat × α) → Nat → Option α
  | [], _ => none
  | (k, v) :: rest, id => if k = id then some v else lookupEntry rest id

/-- Remove every entry with the given key, mirroring `HashMap::remove`. -/
def eraseEntry {α : Type} : List (Nat × α) → Nat → List (Nat × α)
  | [], _ => []
  | (k, v) :: rest, id =>
    if k = id then eraseEntry rest id else (k, v) :: eraseEntry rest id

/-- Insert-or-replace, mirroring `HashMap::insert`. -/
def insertEntry {α : Type} (l : List (Nat × α)) (k : Nat) (v : α) : List (Nat × α) :=
  (k, v) :: eraseEntry l k

/-- Update the entry at a key in place (no-op if absent), mirroring
`HashMap::get_mut` followed by field mutation. -/
def updateEntry {α : Type} : List (Nat × α) → Nat → (α → α) → List (Nat × α)
  | [], _, _ => []
  | (k, v) :: rest, id, f =>
    if k = id then (k, f v) :: rest else (k, v) :: updateEntry rest id f

/-! ## URL normalisation (`core/history.rs`: `HistoryManager::normalize_url`)

`normalize_url` parses its input with the `url` crate (a WHATWG URL parser).
The model below covers hierarchical URLs of the shape
`scheme://host[:port]/path?query#fragment` with domain-name hosts: scheme
parsing, `://` requirement, authority/host/port split with default-port
elision, path segments with dot-segment resolution and percent-encoding,
query and fragment percent-encoding, `query_pairs` form-urlencoded decoding,
`query_pairs_mut().clear()` + `append_pair` re-encoding (including the crate's
behaviour of leaving a `?` with an empty pair list), `set_host`, and
serialisation.  Out of the model's scope (all treated as parse failures):
URLs without `://` after the scheme, userinfo (`@`), IP-address hosts and
bracketed IPv6 hosts (a host whose final dot-label is all digits is
rejected), and percent-encoded or non-ASCII hosts; percent sequences whose
byte is ≥ 0x80 are decoded literally rather than as UTF-8. -/

/-- Printable-ASCII range used by the WHATWG serialiser model. -/
def isAsciiUpper (c : Char) : Bool := 65 ≤ c.toNat && c.toNat ≤ 90

def isAsciiLowerChar (c : Char) : Bool := 97 ≤ c.toNat && c.toNat ≤ 122

def isAsciiAlpha (c : Char) : Bool := isAsciiUpper c || isAsciiLowerChar c

def isAsciiDigitChar (c : Char) : Bool := 48 ≤ c.toNat && c.toNat ≤ 57

/-- ASCII-lowercase a character (the WHATWG host/scheme lowercasing). -/
def asciiLower (c : Char) : Char :=
  if isAsciiUpper c then Char.ofNat (c.toNat + 32) else c

/-- A C0 control or space (stripped from URL input ends by the WHATWG
parser). -/
def isC0OrSpace (c : Char) : Bool := c.toNat ≤ 32

/-- ASCII tab or newline (removed everywhere from URL input by the WHATWG
parser). -/
def isTabOrNewline (c : Char) : Bool := c.toNat = 9 || c.toNat = 10 || c.toNat = 13

/-- Unicode `White_Space` (what Rust `str::trim` removes). -/
def isRustWhitespace (c : Char) : Bool :=
  (9 ≤ c.toNat && c.toNat ≤ 13) || c.toNat = 32 || c.toNat = 133 || c.toNat = 160 ||
  c.toNat = 5760 || (8192 ≤ c.toNat && c.toNat ≤ 8202) || c.toNat = 8232 ||
  c.toNat = 8233 || c.toNat = 8239 || c.toNat = 8287 || c.toNat = 12288

def trimLeadBy (p : Char → Bool) (xs : List Char) : List Char := xs.dropWhile p

def trimEndBy (p : Char → Bool) (xs : List Char) : List Char :=
  (xs.reverse.dropWhile p).reverse

/-- Rust `str::trim`. -/
def rustTrim (s : String) : String :=
  ⟨trimEndBy isRustWhitespace (trimLeadBy isRustWhitespace s.data)⟩

/-- WHATWG URL input preprocessing: strip C0/space at the ends, remove all
ASCII tab/newline. -/
def urlPreprocess (xs : List Char) : List Char :=
  (trimEndBy isC0OrSpace (trimLeadBy isC0OrSpace xs)).filter
    (fun c => ! isTabOrNewline c)

def isSchemeChar (c : Char) : Bool :=
  isAsciiAlpha c || isAsciiDigitChar c || c.toNat = 43 || c.toNat = 45 || c.toNat = 46

/-- Join character lists with a separator list between consecutive pieces. -/
def joinWith (sep : List Char) : List (List Char) → List Char
  | [] => []
  | [x] => x
  | x :: y :: rest => x ++ sep ++ joinWith sep (y :: rest)

def isHostChar (c : Char) : Bool :=
  isAsciiAlpha c || isAsciiDigitChar c || c.toNat = 46 || c.toNat = 45 || c.toNat = 95

def hexDigitChar (n : Nat) : Char :=
  if n < 10 then Char.ofNat (48 + n) else Char.ofNat (55 + n)

/-- UTF-8 encoding of a character, as byte values. -/
def utf8Bytes (c : Char) : List Nat :=
  let v := c.toNat
  if v < 128 then [v]
  else if v < 2048 then [192 + v / 64, 128 + v % 64]
  else if v < 65536 then [224 + v / 4096, 128 + (v / 64) % 64, 128 + v % 64]
  else [240 + v / 262144, 128 + (v / 4096) % 64, 128 + (v / 64) % 64, 128 + v % 64]

def pctEncodeByte (b : Nat) : List Char :=
  ['%', hexDigitChar (b / 16), hexDigitChar (b % 16)]

def pctEncodeChar (c : Char) : List Char :=
  (utf8Bytes c).flatMap pctEncodeByte

/-- The WHATWG C0-control percent-encode set (controls and every code point
above U+007E). -/
def inC0EncodeSet (c : Char) : Bool := c.toNat ≤ 32 || c.toNat ≥ 127

/-- Fragment percent-encode set: C0 set plus `"`, `<`, `>`, backtick. -/
def inFragmentEncodeSet (c : Char) : Bool :=
  inC0EncodeSet c || c.toNat = 34 || c.toNat = 60 || c.toNat = 62 || c.toNat = 96

/-- Query percent-encode set for special schemes: C0 set plus `"`, `#`, `<`,
`>`, `'`. -/
def inQueryEncodeSet (c : Char) : Bool :=
  inC0EncodeSet c || c.toNat = 34 || c.toNat = 35 || c.toNat = 60 ||
  c.toNat = 62 || c.toNat = 39

/-- Path percent-encode set: fragment set plus `#`, `?`, `\x7b`, `\x7d`. -/
def inPathEncodeSet (c : Char) : Bool :=
  inFragmentEncodeSet c || c.toNat = 35 || c.toNat = 63 || c.toNat = 123 ||
  c.toNat = 125

/-- Percent-encode every character of the given set, keep the rest
(`%` is never re-encoded by the parser). -/
def encodeWith (inSet : Char → Bool) (xs : List Char) : List Char :=
  xs.flatMap (fun c => if inSet c then pctEncodeChar c else [c])

/-- Split at the first occurrence of a character; the separator is dropped. -/
def splitFirst (sep : Char) : List Char → Option (List Char × List Char)
  | [] => none
  | c :: rest =>
    if c = sep then some ([], rest)
    else (splitFirst sep rest).map (fun p => (c :: p.1, p.2))

/-- Split on every occurrence of a character (always at least one piece). -/
def splitOnChar (sep : Char) : List Char → List (List Char)
  | [] => [[]]
  | c :: rest =>
    let r := splitOnChar sep rest
    if c = sep then [] :: r
    else match r with
      | [] => [[c]]
      | piece :: more => (c :: piece) :: more

/-- Decimal digits of a natural number (fuelled for kernel reduction;
`fuel = n` always suffices since `n / 10 < n` for `n > 0`). -/
def natToCharsAux : Nat → Nat → List Char → List Char
  | 0, _, acc => acc
  | fuel + 1, n, acc =>
    if n = 0 then acc
    else natToCharsAux fuel (n / 10) (Char.ofNat (48 + n % 10) :: acc)

/-- Decimal rendering of a natural number. -/
def natToChars (n : Nat) : List Char :=
  if n = 0 then ['0'] else natToCharsAux n n []

def digitsToNat (cs : List Char) : Nat :=
  cs.foldl (fun acc c => 10 * acc + (c.toNat - 48)) 0

/-- WHATWG special schemes. -/
def isSpecialScheme (s : String) : Bool :=
  s = "http" || s = "https" || s = "ws" || s = "wss" || s = "ftp" || s = "file"

/-- Default ports elided from the serialisation. -/
def defaultPort (s : String) : Option Nat :=
  if s = "http" then some 80
  else if s = "https" then some 443
  else if s = "ws" then some 80
  else if s = "wss" then some 443
  else if s = "ftp" then some 21
  else none

/-- A parsed URL: scheme and host lowercased, path segments, query and
fragment stored percent-encoded. -/
structure ModelUrl where
  scheme : String
  host : String
  port : Option Nat
  pathSegments : List String
  query : Option String
  fragment : Option String
deriving DecidableEq, Repr

/-- Validate and lowercase a host (model scope: non-empty domain names over
letters/digits/`.`/`-`/`_` whose final non-empty dot-label is not all
digits). -/
def parseHostChars (cs : List Char) : Option String :=
  if cs = [] then none
  else if cs.all isHostChar then
    let lower := cs.map asciiLower
    let labels := splitOnChar '.' lower
    let labs := if labels.getLast? = some [] then labels.dropLast else labels
    match labs.getLast? with
    | some lastLab =>
      if lastLab ≠ [] && lastLab.all isAsciiDigitChar then none else some ⟨lower⟩
    | none => some ⟨lower⟩
  else none

/-- Split an authority into host and port. -/
def parseHostPort (authority : List Char) : Option (String × Option Nat) :=
  match splitFirst ':' authority with
  | some (hostCs, portCs) =>
    if portCs.all isAsciiDigitChar then
      match parseHostChars hostCs with
      | some h =>
        if portCs = [] then some (h, none)
        else
          let p := digitsToNat portCs
          if p < 65536 then some (h, some p) else none
      | none => none
    else none
  | none => (parseHostChars authority).map (fun h => (h, none))

/-- WHATWG dot-segment resolution over path segments.  (Model scope: only the
literal `.` and `..` forms, not their percent-encoded variants.) -/
def resolveDotsAux : List String → List String → List String
  | acc, [] => acc
  | acc, seg :: rest =>
    if seg = ".." then
      if rest = [] then acc.dropLast ++ [""] else resolveDotsAux acc.dropLast rest
    else if seg = "." then
      if rest = [] then acc ++ [""] else resolveDotsAux acc rest
    else resolveDotsAux (acc ++ [seg]) rest

def resolveDots (segs : List String) : List String := resolveDotsAux [] segs

/-- Path parsing: backslash mapping for special schemes, split into segments,
percent-encode, resolve dot segments. -/
def parsePathSegs (special : Bool) (pathRaw : List Char) : List String :=
  let pathRaw2 := if special then
      pathRaw.map (fun c => if c.toNat = 92 then '/' else c)
    else pathRaw
  match pathRaw2 with
  | '/' :: t =>
    resolveDots ((splitOnChar '/' t).map (fun s => ⟨encodeWith inPathEncodeSet s⟩))
  | _ => []

/-- Query and fragment parsing from the remainder after the path. -/
def parseQueryFrag (afterPath : List Char) : Option String × Option String :=
  match afterPath with
  | '?' :: t =>
    let qRaw := t.takeWhile (fun c => c.toNat ≠ 35)
    let afterQ := t.drop qRaw.length
    let frag := match afterQ with
      | _ :: ft => some (⟨encodeWith inFragmentEncodeSet ft⟩ : String)
      | [] => none
    (some (⟨encodeWith inQueryEncodeSet qRaw⟩ : String), frag)
  | _ :: t => (none, some (⟨encodeWith inFragmentEncodeSet t⟩ : String))
  | [] => (none, none)

/-- The hierarchical part of URL parsing, after the scheme and `://` have been
consumed: authority/host/port, path, query, fragment. -/
def parseWithScheme (schemeCs rest2 : List Char) : Option ModelUrl :=
  let scheme : String := ⟨schemeCs.map asciiLower⟩
  let special := isSpecialScheme scheme
  let isAuthEnd := fun (c : Char) =>
    c = '/' || c = '?' || c.toNat = 35 || (special && c.toNat = 92)
  let authority := rest2.takeWhile (fun c => ! isAuthEnd c)
  let afterAuth := rest2.drop authority.length
  if authority.any (fun c => c = '@' || c.toNat = 91 || c.toNat = 93) then none
  else
    match parseHostPort authority with
    | none => none
    | some (host, port) =>
      let port2 := if port = defaultPort scheme then none else port
      let pathRaw := afterAuth.takeWhile (fun c => !(c = '?' || c.toNat = 35))
      let afterPath := afterAuth.drop pathRaw.length
      some { scheme := scheme, host := host, port := port2,
             pathSegments := parsePathSegs special pathRaw,
             query := (parseQueryFrag afterPath).1,
             fragment := (parseQueryFrag afterPath).2 }

/-- Scheme recognition and the `://` requirement. -/
def parseUrlTail (cs : List Char) : Option ModelUrl :=
  match splitFirst ':' cs with
  | none => none
  | some (schemeCs, rest1) =>
    match schemeCs with
    | [] => none
    | c0 :: _ =>
      if isAsciiAlpha c0 && schemeCs.all isSchemeChar then
        match rest1 with
        | '/' :: '/' :: rest2 => parseWithScheme schemeCs rest2
        | _ => none
      else none

/-- Model of `url::Url::parse` on hierarchical URLs (see the section comment
for the model's scope; inputs outside it yield `none`). -/
def parseUrl (raw : String) : Option ModelUrl :=
  parseUrlTail (urlPreprocess raw.data)

/-- Serialised path (`Url::path`): `/`-joined segments; `/` for an empty path
of a special scheme. -/
def pathCharsOf (u : ModelUrl) : List Char :=
  match u.pathSegments with
  | [] => if isSpecialScheme u.scheme then ['/'] else []
  | seg :: more =>
    '/' :: joinWith ['/'] ((seg :: more).map String.data)

/-- `Url::path` as a string. -/
def ModelUrl.pathStr (u : ModelUrl) : String := ⟨pathCharsOf u⟩

/-- Serialisation (`Url::to_string` / `as_str`). -/
def ModelUrl.renderChars (u : ModelUrl) : List Char :=
  u.scheme.data ++ ':' :: '/' :: '/' :: u.host.data ++
  (match u.port with | some p => ':' :: natToChars p | none => []) ++
  pathCharsOf u ++
  (match u.query with | some q => '?' :: q.data | none => []) ++
  (match u.fragment with | some f => '#' :: f.data | none => [])

def ModelUrl.render (u : ModelUrl) : String := ⟨u.renderChars⟩

/-- `Url::set_host(Some(h))`, ignoring failure (`let _ = ...` in the
source). -/
def ModelUrl.trySetHost (u : ModelUrl) (h : String) : ModelUrl :=
  match parseHostChars h.data with
  | some h2 => { u with host := h2 }
  | none => u

/-- Hexadecimal digit value. -/
def hexVal (c : Char) : Option Nat :=
  if 48 ≤ c.toNat && c.toNat ≤ 57 then some (c.toNat - 48)
  else if 65 ≤ c.toNat && c.toNat ≤ 70 then some (c.toNat - 55)
  else if 97 ≤ c.toNat && c.toNat ≤ 102 then some (c.toNat - 87)
  else none

/-- Form-urlencoded decoding (`form_urlencoded::parse`): `+` means space,
`%XX` decodes (model scope: only ASCII bytes; higher bytes stay literal). -/
def pctDecodeList : List Char → List Char
  | [] => []
  | '%' :: a :: b :: rest2 =>
    match hexVal a, hexVal b with
    | some x, some y =>
      let v := 16 * x + y
      if v < 128 then Char.ofNat v :: pctDecodeList rest2
      else '%' :: a :: b :: pctDecodeList rest2
    | _, _ => '%' :: pctDecodeList (a :: b :: rest2)
  | '+' :: rest => ' ' :: pctDecodeList rest
  | c :: rest => c :: pctDecodeList rest

/-- `Url::query_pairs`: split the raw query on `&` (empty pieces skipped),
split each piece at the first `=`, decode both sides. -/
def queryPairsOf (q : String) : List (String × String) :=
  ((splitOnChar '&' q.data).filter (fun piece => piece ≠ [])).map fun piece =>
    match splitFirst '=' piece with
    | some (k, v) => ((⟨pctDecodeList k⟩ : String), (⟨pctDecodeList v⟩ : String))
    | none => ((⟨pctDecodeList piece⟩ : String), "")

def isFormSafe (c : Char) : Bool :=
  isAsciiAlpha c || isAsciiDigitChar c || c.toNat = 42 || c.toNat = 45 ||
  c.toNat = 46 || c.toNat = 95

/-- Form-urlencoded encoding of one character (`Serializer::append_pair`). -/
def formEncodeChar (c : Char) : List Char :=
  if c = ' ' then ['+']
  else if isFormSafe c then [c]
  else (utf8Bytes c).flatMap pctEncodeByte

def formEncode (xs : List Char) : List Char := xs.flatMap formEncodeChar

/-- Re-encode a pair list as a raw query string
(`query_pairs_mut().clear()` followed by `append_pair` for every pair; an
empty list leaves the empty query that the crate serialises as a lone `?`). -/
def renderPairs (ps : List (String × String)) : String :=
  ⟨joinWith ['&']
    (ps.map fun p => formEncode p.1.data ++ '=' :: formEncode p.2.data)⟩

/-- Does the list contain the three-character separator `://`? -/
def hasSep : List Char → Bool
  | [] => false
  | c :: rest => (c = ':' && listStartsWith ['/', '/'] rest) || hasSep rest

/-- Visible-ASCII characters (0x21..0x7E): what the serialiser model emits. -/
def printableChar (c : Char) : Bool := 33 ≤ c.toNat && c.toNat ≤ 126

def printableStr (s : String) : Bool := s.data.all printableChar

/-- Remainder after the first `://`, if any. -/
def dropToSep : List Char → Option (List Char)
  | [] => none
  | c :: rest =>
    if c = ':' && listStartsWith ['/', '/'] rest then some (rest.drop 2)
    else dropToSep rest

/-- Remainder after the last `://`, fuelled (each found separator strictly
shortens the list, so `fuel = xs.length` suffices). -/
def afterLastSepAux : Nat → List Char → List Char
  | 0, xs => xs
  | fuel + 1, xs =>
    match dropToSep xs with
    | some r => afterLastSepAux fuel r
    | none => xs

/-- Remainder after the last `://` (Rust `s.split("://").last()`). -/
def afterLastSep (xs : List Char) : List Char := afterLastSepAux xs.length xs

/-- Every component of a parsed URL is visible-ASCII (an invariant of the
parse model, used to settle idempotence). -/
def ModelUrl.WF (u : ModelUrl) : Bool :=
  printableStr u.scheme && printableStr u.host &&
  u.pathSegments.all printableStr &&
  (match u.query with | some q => printableStr q | none => true) &&
  (match u.fragment with | some f => printableStr f | none => true)

/-- `HistoryManager::normalize_url`, middle part: the URL-level rewrites
applied to a successfully parsed URL (host rewrites, then
`query_pairs_mut().clear()` + re-append of the kept parameters). -/
def normalizeStepUrl (url0 : ModelUrl) : ModelUrl :=
  let url1 :=
    if url0.host = "youtu.be" then
      let path := (url0.pathStr.data.dropWhile (fun c => c = '/'))
      if path ≠ [] then
        match parseUrl ("https://youtube.com/watch?v=" ++ (⟨path⟩ : String)) with
        | some u2 => u2
        | none => url0
      else url0
    else if url0.host = "m.youtube.com" then url0.trySetHost "youtube.com"
    else if listStartsWith ['w', 'w', 'w', '.'] url0.host.data then
      url0.trySetHost ⟨url0.host.data.drop 4⟩
    else url0
  let currentParams := match url1.query with
    | some q => queryPairsOf q
    | none => []
  let isYt := strContains url1.host "youtube"
  let kept :=
    if isYt then
      currentParams.filter (fun p => p.1 == "v" || p.1 == "list" || p.1 == "id")
    else
      currentParams.filter (fun p =>
        ! (p.1 == "utm_source" || p.1 == "utm_medium" || p.1 == "utm_campaign" ||
           p.1 == "si" || p.1 == "feature" || p.1 == "ab_channel"))
  { url1 with query := some (renderPairs kept) }

/-- `HistoryManager::normalize_url`, second half: rewrite the parsed URL,
serialise, drop the scheme (`split("://").last()`), trim trailing `/`. -/
def normalizeParsed (url0 : ModelUrl) : String :=
  ⟨trimEndBy (fun c => c = '/') (afterLastSep (normalizeStepUrl url0).renderChars)⟩

/-- `HistoryManager::normalize_url` (`core/history.rs` lines 139-189): on
parse failure return the Rust-trimmed raw string, otherwise rewrite
`youtu.be`/`m.youtube.com`/`www.` hosts, keep only `v`/`list`/`id` parameters
on youtube hosts and drop tracking parameters elsewhere, drop the scheme and
any trailing `/`. -/
def normalizeUrl (rawUrl : String) : String :=
  match parseUrl rawUrl with
  | none => rustTrim rawUrl
  | some url0 => normalizeParsed url0

/-! ## Data model (`models.rs`, with the `sequence_id` field used by
`manager.rs`) -/

/-- `JobStatus` from `models.rs`. -/
inductive JobStatus where
  | pending
  | downloading
  | completed
  | cancelled
  | error
deriving DecidableEq, Repr

/-- `DownloadFormatPreset` from `models.rs`. -/
inductive FormatPreset where
  | best
  | bestMp4
  | bestMkv
  | bestWebm
  | audioBest
  | audioMp3
  | audioFlac
  | audioM4a
deriving DecidableEq, Repr

/-- `QueuedJob` from `models.rs`.  UUIDs are modelled as `Nat`. -/
structure QueuedJob where
  id : Nat
  url : String
  downloadPath : Option String := none
  formatPreset : FormatPreset := .best
  videoResolution : String := "best"
  embedMetadata : Bool := false
  embedThumbnail : Bool := false
  filenameTemplate : String := "%(title)s.%(ext)s"
  restrictFilenames : Bool := false
  liveFromStart : Bool := false
  status : Option String := none
  error : Option String := none
  stderr : Option String := none
deriving DecidableEq, Repr

/-- Live `Job` from `models.rs`, plus the `sequence_id` counter that
`manager.rs` bumps on every state change.  `f32` progress is modelled as `Rat`. -/
structure Job where
  id : Nat
  url : String
  pid : Option Nat := none
  status : JobStatus := .pending
  progress : Rat := 0
  outputPath : Option String := none
  speed : Option String := none
  eta : Option String := none
  filename : Option String := none
  phase : Option String := none
  error : Option String := none
  exitCode : Option Int := none
  stderr : Option String := none
  logs : Option String := none
  preset : Option FormatPreset := none
  videoResolution : Option String := none
  downloadPath : Option String := none
  filenameTemplate : Option String := none
  embedMetadata : Option Bool := none
  embedThumbnail : Option Bool := none
  restrictFilenames : Option Bool := none
  liveFromStart : Option Bool := none
  sequenceId : Nat := 0
deriving DecidableEq, Repr

/-- `Job::new` from `models.rs`. -/
def Job.new (id : Nat) (url : String) : Job :=
  { id := id, url := url }

/-- `DownloadErrorPayload` from `models.rs`. -/
structure ErrorPayload where
  jobId : Nat
  error : String
  exitCode : Option Int := none
  stderr : String := ""
  logs : String := ""
deriving DecidableEq, Repr

/-- `DownloadProgressPayload` from `models.rs`, with the `sequence_id`
stamped by `manager.rs`. -/
structure ProgressPayload where
  jobId : Nat
  percentage : Rat
  sequenceId : Nat
  speed : String
  eta : String
  filename : Option String
  phase : Option String
deriving DecidableEq, Repr

/-- `JobMessage` from `models.rs`.  `GetPendingCount`/`ResumePending` read the
persistence file from disk; the parsed file content (or `none` on a
missing/unreadable file) is supplied as message data. -/
inductive JobMessage where
  | addJob (job : QueuedJob)
  | cancelJob (id : Nat)
  | updateProgress (id : Nat) (percentage : Rat) (speed eta : String)
      (filename : Option String) (phase : String)
  | processStarted (id : Nat) (pid : Nat)
  | jobCompleted (id : Nat) (outputPath : String)
  | jobError (id : Nat) (payload : ErrorPayload)
  | workerFinished
  | getPendingCount (disk : Option (List QueuedJob))
  | resumePending (disk : Option (List QueuedJob))
  | clearPending
  | syncState

/-- Observable effects of the actor: responses on `oneshot` channels, process
kills, worker spawns, and events emitted to the host shell. -/
inductive ManagerEvent where
  | respOk
  | respErr (msg : String)
  | killSignal (pid : Nat)
  | spawnWorker (job : QueuedJob)
  | emitCancelled (id : Nat)
  | emitComplete (id : Nat) (outputPath : String)
  | emitError (payload : ErrorPayload)
  | notifyFinished (count : Nat)
  | replyPendingCount (n : Nat)
  | replyResumed (jobs : List QueuedJob)
  | replySync
deriving DecidableEq, Repr

/-- The `general` section fields of `config.json` read by the manager. -/
structure GeneralConfig where
  maxConcurrentDownloads : Nat := 4
  maxTotalInstances : Nat := 10
deriving DecidableEq, Repr

/-- The mutable state owned by `JobManagerActor` (`manager.rs`). -/
structure ManagerState where
  jobs : List (Nat × Job) := []
  queue : List QueuedJob := []
  persistenceRegistry : List (Nat × QueuedJob) := []
  dirtyPersistence : Bool := false
  activeNetworkJobs : Nat := 0
  activeProcessInstances : Nat := 0
  completedSessionCount : Nat := 0
  pendingUpdates : List (Nat × ProgressPayload) := []
deriving DecidableEq, Repr

/-- The actor's initial state (`JobManagerActor::new`). -/
def initialManagerState : ManagerState := {}

/-- `JobManagerActor::is_fatal_error`. -/
def isFatalError (errMsg : String) : Bool :=
  let msg : String := ⟨errMsg.data.map asciiLower⟩
  strContains msg "video unavailable" ||
  strContains msg "this video has been removed" ||
  (strContains msg "fragment" && strContains msg "not received") ||
  strContains msg "http error 404"

/-- One pass of the `process_queue` while-loop (`manager.rs` lines 465-492):
pop jobs while both counters are strictly below their limits, drop cancelled
jobs, increment both counters and spawn a worker for the rest.  Returns the new
counters, the remaining queue, and the jobs handed to workers. -/
def processQueueAux (cfg : GeneralConfig) (jobs : List (Nat × Job)) (net inst : Nat) :
    List QueuedJob → Nat × Nat × List QueuedJob × List QueuedJob
  | [] => (net, inst, [], [])
  | j :: rest =>
    if net < cfg.maxConcurrentDownloads ∧ inst < cfg.maxTotalInstances then
      if (lookupEntry jobs j.id).map Job.status = some JobStatus.cancelled then
        processQueueAux cfg jobs net inst rest
      else
        let r := processQueueAux cfg jobs (net + 1) (inst + 1) rest
        (r.1, r.2.1, r.2.2.1, j :: r.2.2.2)
    else (net, inst, j :: rest, [])

/-- `JobManagerActor::process_queue`. -/
def processQueue (cfg : GeneralConfig) (s : ManagerState) : ManagerState × List ManagerEvent :=
  let r := processQueueAux cfg s.jobs s.activeNetworkJobs s.activeProcessInstances s.queue
  ({ s with activeNetworkJobs := r.1, activeProcessInstances := r.2.1, queue := r.2.2.1 },
   r.2.2.2.map ManagerEvent.spawnWorker)

/-- The live `Job` built from a `QueuedJob` when it is admitted
(`manager.rs` `AddJob` handler, also reused by `ResumePending`). -/
def jobFromQueued (job : QueuedJob) : Job :=
  { Job.new job.id job.url with
    preset := some job.formatPreset
    videoResolution := some job.videoResolution
    downloadPath := job.downloadPath
    filenameTemplate := some job.filenameTemplate
    embedMetadata := some job.embedMetadata
    embedThumbnail := some job.embedThumbnail
    restrictFilenames := some job.restrictFilenames
    liveFromStart := some job.liveFromStart }

/-- One step of the `ResumePending` reconstruction loop (`manager.rs` lines
375-417): skip ids already in the table; entries persisted with
`status = "error"` enter the table but are not queued. -/
def resumeJob (s : ManagerState) (job : QueuedJob) : ManagerState :=
  if (lookupEntry s.jobs job.id).isSome then s
  else
    let base := jobFromQueued job
    let j := if job.status = some "error" then
        { base with status := .error, error := job.error, stderr := job.stderr }
      else base
    let s := { s with jobs := insertEntry s.jobs job.id j,
                      persistenceRegistry := insertEntry s.persistenceRegistry job.id job }
    if j.status ≠ JobStatus.error then { s with queue := s.queue ++ [job] } else s

/-- The full `ResumePending` loop; also returns the list of resumed jobs sent
back on the response channel. -/
def resumeFold : ManagerState → List QueuedJob → ManagerState × List QueuedJob
  | s, [] => (s, [])
  | s, j :: rest =>
    if (lookupEntry s.jobs j.id).isSome then resumeFold s rest
    else
      let r := resumeFold (resumeJob s j) rest
      (r.1, j :: r.2)

/-- `JobManagerActor::handle_message` (`manager.rs` lines 219-455). -/
def handleMessage (cfg : GeneralConfig) (s : ManagerState) :
    JobMessage → ManagerState × List ManagerEvent
  | .addJob job =>
    if (lookupEntry s.jobs job.id).isSome then
      (s, [.respErr "Job already exists"])
    else
      let dup := s.jobs.any fun kv =>
        kv.2.url == job.url &&
          (kv.2.status == JobStatus.pending || kv.2.status == JobStatus.downloading)
      if dup then (s, [.respErr "URL is already in queue"])
      else
        let s := { s with
          jobs := insertEntry s.jobs job.id (jobFromQueued job)
          persistenceRegistry := insertEntry s.persistenceRegistry job.id job
          queue := s.queue ++ [job]
          dirtyPersistence := true }
        let r := processQueue cfg s
        (r.1, r.2 ++ [.respOk])
  | .cancelJob id =>
    let killEvs := match lookupEntry s.jobs id with
      | some job => match job.pid with
        | some pid => [ManagerEvent.killSignal pid]
        | none => []
      | none => []
    let s := { s with
      jobs := updateEntry s.jobs id fun j =>
        { j with status := .cancelled, sequenceId := j.sequenceId + 1 }
      persistenceRegistry := eraseEntry s.persistenceRegistry id
      dirtyPersistence := true }
    (s, killEvs ++ [.emitCancelled id])
  | .processStarted id pid =>
    match lookupEntry s.jobs id with
    | some job =>
      if job.status = JobStatus.cancelled then (s, [.killSignal pid])
      else
        ({ s with jobs := updateEntry s.jobs id fun j =>
            { j with pid := some pid, status := .downloading,
                     sequenceId := j.sequenceId + 1 } }, [])
    | none => (s, [])
  | .updateProgress id percentage speed eta filename phase =>
    match lookupEntry s.jobs id with
    | some job =>
      if job.status = JobStatus.cancelled then (s, [])
      else
        ({ s with
          jobs := updateEntry s.jobs id fun j =>
            { j with progress := percentage, speed := some speed, eta := some eta,
                     filename := if filename.isSome then filename else j.filename,
                     phase := some phase, sequenceId := j.sequenceId + 1 }
          pendingUpdates := insertEntry s.pendingUpdates id
            { jobId := id, percentage := percentage, sequenceId := job.sequenceId + 1,
              speed := speed, eta := eta, filename := filename,
              phase := some phase } }, [])
    | none => (s, [])
  | .jobCompleted id outputPath =>
    if (lookupEntry s.jobs id).map Job.status = some JobStatus.cancelled then (s, [])
    else
      let s := { s with jobs := updateEntry s.jobs id fun j =>
        { j with status := .completed, progress := 100, outputPath := some outputPath,
                 phase := some "Done", sequenceId := j.sequenceId + 1 } }
      ({ s with persistenceRegistry := eraseEntry s.persistenceRegistry id,
                dirtyPersistence := true },
       [.emitComplete id outputPath])
  | .jobError id payload =>
    if (lookupEntry s.jobs id).map Job.status = some JobStatus.cancelled then (s, [])
    else
      let s := { s with jobs := updateEntry s.jobs id fun j =>
        { j with status := .error, error := some payload.error,
                 stderr := some payload.stderr, logs := some payload.logs,
                 exitCode := payload.exitCode, sequenceId := j.sequenceId + 1 } }
      let s :=
        if isFatalError payload.error || isFatalError payload.stderr then
          { s with persistenceRegistry := eraseEntry s.persistenceRegistry id }
        else
          { s with persistenceRegistry := updateEntry s.persistenceRegistry id fun reg =>
            { reg with status := some "error", error := some payload.error,
                       stderr := some payload.stderr } }
      ({ s with dirtyPersistence := true }, [.emitError payload])
  | .workerFinished =>
    let inst2 := if s.activeProcessInstances > 0 then s.activeProcessInstances - 1
      else s.activeProcessInstances
    let completed2 := if s.activeProcessInstances > 0 then s.completedSessionCount + 1
      else s.completedSessionCount
    let net2 := if s.activeNetworkJobs > 0 then s.activeNetworkJobs - 1
      else s.activeNetworkJobs
    let notif := if inst2 = 0 then
        (if completed2 = 0 then ([] : List ManagerEvent)
         else [.notifyFinished completed2])
      else []
    let completed3 := if inst2 = 0 then 0 else completed2
    let s := { s with activeProcessInstances := inst2, activeNetworkJobs := net2,
                      completedSessionCount := completed3 }
    let r := processQueue cfg s
    (r.1, notif ++ r.2)
  | .getPendingCount disk =>
    (s, [.replyPendingCount (match disk with | some jobs => jobs.length | none => 0)])
  | .resumePending disk =>
    let r := resumeFold s (disk.getD [])
    let r2 := processQueue cfg r.1
    (r2.1, r2.2 ++ [.replyResumed r.2])
  | .clearPending => (s, [])
  | .syncState => (s, [.replySync])

/-- States reachable by the actor from its initial state under any sequence of
handled messages, for a fixed configuration.  (`Shutdown` only kills known
pids and then drains `WorkerFinished` messages through `handle_message`, so
its state effects are covered by `workerFinished` steps.) -/
inductive Reachable (cfg : GeneralConfig) : ManagerState → Prop where
  | init : Reachable cfg initialManagerState
  | step {s : ManagerState} (msg : JobMessage) (h : Reachable cfg s) :
      Reachable cfg (handleMessage cfg s msg).1

/-! ## `start_download` (`commands/downloader.rs`) -/

/-- `PlaylistEntry` from `models.rs`. -/
structure PlaylistEntry where
  id : Option String := none
  url : String
  title : String := "Unknown"
deriving DecidableEq, Repr

/-- `StartDownloadResponse` from `models.rs`. -/
structure StartDownloadResponse where
  jobIds : List Nat
  skippedCount : Nat
  totalFound : Nat
  skippedUrls : List String
deriving DecidableEq, Repr

def rustTrimChars (xs : List Char) : List Char :=
  trimEndBy isRustWhitespace (trimLeadBy isRustWhitespace xs)

/-- `load_history` (`commands/downloader.rs` lines 24-40): the set of
trimmed, non-empty lines of the history file, stored **verbatim** (this
helper performs no URL normalisation). -/
def loadHistory (fileContent : String) : List String :=
  (((splitOnChar (Char.ofNat 10) fileContent.data).map rustTrimChars).filter
    (fun l => l ≠ [])).map (fun l => (⟨l⟩ : String))

/-- The per-request download options of `start_download` shared by every
created job. -/
structure DownloadOptions where
  downloadPath : Option String := none
  formatPreset : FormatPreset := .best
  videoResolution : String := "best"
  embedMetadata : Bool := false
  embedThumbnail : Bool := false
  safeTemplate : String := "%(title)s.%(ext)s"
  restrictFilenames : Option Bool := none
deriving DecidableEq, Repr

/-- Accumulated outcome of the `start_download` filter-and-queue loop. -/
structure StartDownloadAcc where
  state : ManagerState
  jobIds : List Nat
  urlsToArchive : List String
  skippedUrls : List String
deriving Repr

/-- The filter-and-queue loop of `start_download` (lines 206-249): whitelist
check, then — unless forced — the history check `history.contains(&entry.url)`
(a verbatim string-set membership test on the raw file lines), then
`manager.add_job`.  Fresh UUIDs are modelled by consecutive naturals from
`nextId`. -/
def startDownloadLoop (cfg : GeneralConfig) (opts : DownloadOptions)
    (history : List String) (isForced : Bool) (whitelist : Option (List String)) :
    ManagerState → Nat → List PlaylistEntry → StartDownloadAcc
  | st, _, [] => { state := st, jobIds := [], urlsToArchive := [], skippedUrls := [] }
  | st, nextId, entry :: rest =>
    if (match whitelist with
        | some wl => ! wl.contains entry.url
        | none => false) then
      startDownloadLoop cfg opts history isForced whitelist st nextId rest
    else if ! isForced && history.contains entry.url then
      let r := startDownloadLoop cfg opts history isForced whitelist st nextId rest
      { r with skippedUrls := entry.url :: r.skippedUrls }
    else
      let jobData : QueuedJob :=
        { id := nextId, url := entry.url, downloadPath := opts.downloadPath,
          formatPreset := opts.formatPreset, videoResolution := opts.videoResolution,
          embedMetadata := opts.embedMetadata, embedThumbnail := opts.embedThumbnail,
          filenameTemplate := opts.safeTemplate,
          restrictFilenames := opts.restrictFilenames.getD false }
      let res := handleMessage cfg st (.addJob jobData)
      if res.2.contains ManagerEvent.respOk then
        let r := startDownloadLoop cfg opts history isForced whitelist res.1 (nextId + 1) rest
        { r with
          jobIds := nextId :: r.jobIds,
          urlsToArchive := if ! history.contains entry.url then
              entry.url :: r.urlsToArchive
            else r.urlsToArchive }
      else
        startDownloadLoop cfg opts history isForced whitelist res.1 nextId rest

/-- `start_download` (lines 156-264): validation, probe result, history
load, the loop above, and the response.  The probe result and the history
file content are supplied as data. -/
def startDownload (cfg : GeneralConfig) (opts : DownloadOptions) (st : ManagerState)
    (url filenameTemplate : String) (forceDownload : Option Bool)
    (urlWhitelist : Option (List String)) (probeEntries : List PlaylistEntry)
    (historyFile : String) (nextId : Nat) :
    Except String (StartDownloadResponse × ManagerState) :=
  if ! (listStartsWith "http://".data url.data || listStartsWith "https://".data url.data) then
    .error "Invalid URL provided."
  else if (rustTrim filenameTemplate).data ≠ [] &&
      (strContains filenameTemplate ".." ||
       listStartsWith "/".data filenameTemplate.data ||
       listStartsWith "\\".data filenameTemplate.data) then
    .error "Invalid characters in filename template."
  else
    let safeTemplate := if (rustTrim filenameTemplate).data = [] then
        "%(title)s.%(ext)s" else filenameTemplate
    let isForced := forceDownload.getD false
    let history := loadHistory historyFile
    let acc := startDownloadLoop cfg { opts with safeTemplate := safeTemplate }
      history isForced urlWhitelist st nextId probeEntries
    .ok ({ jobIds := acc.jobIds, skippedCount := acc.skippedUrls.length,
           totalFound := probeEntries.length, skippedUrls := acc.skippedUrls },
         acc.state)

/-! ## Transport engine (`core/transport/retry.rs`, `core/transport/engine.rs`) -/

/-- `RetryPolicy` (`retry.rs`). -/
structure RetryPolicy where
  maxRetries : Nat
  currentAttempt : Nat
  baseDelayMs : Nat
deriving DecidableEq, Repr

/-- `RetryPolicy::new`. -/
def RetryPolicy.new (maxRetries : Nat) : RetryPolicy :=
  { maxRetries := maxRetries, currentAttempt := 0, baseDelayMs := 1000 }

/-- `RetryPolicy::next_backoff`: the next delay (ms, capped at 10000), or
`none` once `max_retries` backoffs have been handed out. -/
def RetryPolicy.nextBackoff (p : RetryPolicy) : Option (Nat × RetryPolicy) :=
  if p.currentAttempt ≥ p.maxRetries then none
  else
    let delay := p.baseDelayMs * 2 ^ p.currentAttempt
    some (min delay 10000, { p with currentAttempt := p.currentAttempt + 1 })

/-- `Chunk` (`engine.rs`); `endByte` is the Rust field `end` (a Lean
keyword). -/
structure Chunk where
  index : Nat
  start : Nat
  endByte : Nat
  len : Nat
deriving DecidableEq, Repr

/-- The chunk partition of `download_concurrent` (engine.rs lines 176-187):
equal ranges, last chunk absorbs the remainder. -/
def computeChunks (totalSize : Nat) (concurrency : Nat) : List Chunk :=
  let chunkSize := totalSize / concurrency
  (List.range concurrency).map fun i =>
    let start := i * chunkSize
    let endB := if i = concurrency - 1 then totalSize - 1 else (i + 1) * chunkSize - 1
    { index := i, start := start, endByte := endB, len := endB - start + 1 }

/-- File-open options. -/
structure OpenSpec where
  create : Bool
  write : Bool
  truncate : Bool
  append : Bool
deriving DecidableEq, Repr

/-- The options with which `download_chunk` opens the chunk staging file
(engine.rs line 287): `create(true).write(true).truncate(true)` — truncating,
not appending. -/
def chunkOpenSpec : OpenSpec :=
  { create := true, write := true, truncate := true, append := false }

/-- The `Range` header sent by `download_chunk` (engine.rs line 280): always
`bytes=start-end`, the full chunk range. -/
def chunkRangeHeader (chunk : Chunk) : String :=
  "bytes=" ++ (⟨natToChars chunk.start⟩ : String) ++ "-" ++
    (⟨natToChars chunk.endByte⟩ : String)

/-- Modelled from the spec: the resume request the specification describes,
`Range: bytes=start+existing-end` (for comparison with the code's
`chunkRangeHeader`). -/
def specResumeRangeHeader (chunk : Chunk) (existing : Nat) : String :=
  "bytes=" ++ (⟨natToChars (chunk.start + existing)⟩ : String) ++ "-" ++
    (⟨natToChars chunk.endByte⟩ : String)

inductive ChunkOutcome where
  | ok
  | validationErr (got expected : Nat)
deriving DecidableEq, Repr

/-- Data behaviour of one `download_chunk` attempt (engine.rs lines 273-312):
the truncating open discards `priorBytes` (bytes left in the staging file by
an earlier attempt); the file then holds exactly the streamed bytes; the
attempt succeeds iff the streamed total equals the chunk length. -/
def downloadChunkRun (chunk : Chunk) (priorBytes : Nat) (streamed : List Nat) :
    Nat × ChunkOutcome :=
  let written := streamed.foldl (fun a b => a + b) 0
  (written, if written = chunk.len then .ok else .validationErr written chunk.len)

/-- The per-chunk retry loop of `download_concurrent` (engine.rs lines
226-239): spawn the attempt, on failure consult `RetryPolicy::new(5)`.
`outcome i` is whether attempt `i` succeeds; returns (attempts made,
success).  Fuel 6 = 1 + the policy's 5 retries is always sufficient. -/
def chunkRetryLoop (fuel : Nat) (p : RetryPolicy) (outcome : Nat → Bool) (i : Nat) :
    Nat × Bool :=
  match fuel with
  | 0 => (i, false)
  | fuel + 1 =>
    if outcome i then (i + 1, true)
    else match p.nextBackoff with
      | some r => chunkRetryLoop fuel r.2 outcome (i + 1)
      | none => (i + 1, false)

/-- One chunk worker task (engine.rs lines 226-239). -/
def chunkWorker (outcome : Nat → Bool) : Nat × Bool :=
  chunkRetryLoop 6 (RetryPolicy.new 5) outcome 0

/-- A flat file system for the transport model: path to byte length. -/
structure TransportFs where
  files : List (String × Nat)
deriving DecidableEq, Repr

/-- Chunk staging path (engine.rs line 224):
`target.with_extension(format!("part.{}.{}", timestamp, index))`.  Model
scope: targets whose file name has no extension, for which `with_extension`
appends. -/
def partPath (target : String) (timestamp : Nat) (index : Nat) : String :=
  target ++ ".part." ++ (⟨natToChars timestamp⟩ : String) ++ "." ++
    (⟨natToChars index⟩ : String)

/-- The substring `cleanup_parts` matches file names against (engine.rs
lines 340-352). -/
def partPattern (timestamp : Nat) : String :=
  "part." ++ (⟨natToChars timestamp⟩ : String) ++ "."

/-- `cleanup_parts` (engine.rs lines 340-352): delete every file whose name
contains `part.<timestamp>.`. -/
def cleanupParts (fs : TransportFs) (timestamp : Nat) : TransportFs :=
  { files := fs.files.filter (fun f => ! strContains f.1 (partPattern timestamp)) }

/-- Merge + finalise (engine.rs lines 314-338 and 354-384), data level:
parts are appended into the target and deleted. -/
def mergeAndFinalize (fs : TransportFs) (target : String) (timestamp : Nat)
    (totalSize : Nat) : TransportFs :=
  { files := (target, totalSize) ::
      (fs.files.filter (fun f =>
        ! strContains f.1 (partPattern timestamp) && f.1 ≠ target)) }

inductive TransportOutcome where
  | ok
  | validation (msg : String)
deriving DecidableEq, Repr

/-- `download_concurrent` (engine.rs lines 172-271), data/outcome level:
partition into 4 chunks, run the chunk workers (`outcomes i j` = attempt `j`
of chunk `i` succeeds; `written i` = bytes its staging file ends up with);
if any chunk failed permanently, run `cleanup_parts` — deleting the staging
files — and return a `Validation` error; otherwise merge and finalise. -/
def downloadConcurrent (fs : TransportFs) (target : String) (timestamp : Nat)
    (totalSize : Nat) (outcomes : Nat → Nat → Bool) (written : Nat → Nat) :
    TransportFs × TransportOutcome :=
  let chunks := computeChunks totalSize 4
  let newFiles := fs.files ++
    chunks.map (fun c => (partPath target timestamp c.index, written c.index))
  let fs1 : TransportFs := { files := newFiles }
  let failed := chunks.any (fun c => ! (chunkWorker (outcomes c.index)).2)
  if failed then
    (cleanupParts fs1 timestamp, .validation "One or more chunks failed")
  else
    (mergeAndFinalize fs1 target timestamp totalSize, .ok)

/-! ## `robust_move_file` and the worker (`core/process.rs`) -/

/-- A flat file system for the worker model. -/
structure WorkerFs where
  files : List String
deriving DecidableEq, Repr

inductive MoveError where
  | alreadyExists
  | other
deriving DecidableEq, Repr

/-- `robust_move_file` (process.rs lines 128-159): refuse with
`AlreadyExists` whenever the destination exists (checked before every
attempt); otherwise rename, retrying up to 3 transient failures
(`renameOk i` = the i-th rename succeeds), then fall back to copy-then-
delete (`copyOk`).  Fuel 5 covers the at most 4 failed renames. -/
def robustMoveFile (fuel : Nat) (fs : WorkerFs) (renameOk : Nat → Bool)
    (copyOk : Bool) (src dest : String) (attempts : Nat) :
    WorkerFs × Option MoveError :=
  match fuel with
  | 0 => (fs, some .other)
  | fuel + 1 =>
    if fs.files.contains dest then (fs, some .alreadyExists)
    else if renameOk attempts then
      ({ files := dest :: fs.files.filter (fun f => f ≠ src) }, none)
    else if attempts + 1 > 3 then
      if copyOk then ({ files := dest :: fs.files.filter (fun f => f ≠ src) }, none)
      else (fs, some .other)
    else robustMoveFile fuel fs renameOk copyOk src dest (attempts + 1)

/-- Observable worker effects. -/
inductive WorkerEvent where
  | progressPhase (phase : String)
  | completedEv (outputPath : String)
  | conflictEv (tempPath outputPath : String)
  | errorEv (msg : String)
deriving DecidableEq, Repr

/-- The stage-directory cleanup at the end of `run_download_process`
(process.rs lines 592-611), executed only when `preserve_temp_file` is
unset. -/
def cleanupStage (fs : WorkerFs) (stageFiles : List String) : WorkerFs :=
  { files := fs.files.filter (fun f => ! stageFiles.contains f) }

/-- The finalisation tail of `run_download_process` on zero exit (process.rs
lines 522-561) plus the guarded stage cleanup (lines 592-611): emit the
"Moving to Library" progress, run `robust_move_file`; on `AlreadyExists`
emit `FileConflict(temp, dest)` and preserve the staged file and stage
directory; on success or any other error, clean the stage directory. -/
def workerFinalize (fs : WorkerFs) (renameOk : Nat → Bool) (copyOk : Bool)
    (srcPath destPath : String) (stageFiles : List String) :
    WorkerFs × List WorkerEvent :=
  let moved := robustMoveFile 5 fs renameOk copyOk srcPath destPath 0
  match moved.2 with
  | none =>
    (cleanupStage moved.1 stageFiles,
     [.progressPhase "Moving to Library", .completedEv destPath])
  | some .alreadyExists =>
    (moved.1, [.progressPhase "Moving to Library", .conflictEv srcPath destPath])
  | some .other =>
    (cleanupStage moved.1 stageFiles,
     [.progressPhase "Moving to Library", .errorEv "File move failed"])

/-- `FILESYSTEM_ERROR_REGEX` (process.rs line 22): the five filesystem-naming
patterns, matched case-insensitively anywhere in the captured output. -/
def filesystemErrorMatch (logBlob : String) : Bool :=
  let msg : String := ⟨logBlob.data.map asciiLower⟩
  strContains msg "no such file" || strContains msg "invalid argument" ||
  strContains msg "cannot be written" || strContains msg "winerror 123" ||
  strContains msg "postprocessing: error opening input files"

/-- Decimal rendering of an integer. -/
def intToChars (i : Int) : List Char :=
  if i < 0 then Char.ofNat 45 :: natToChars i.natAbs else natToChars i.natAbs

/-- The short error message of the non-zero-exit branch (process.rs lines
579-585). -/
def shortErrorMessage (stderrBlob : String) (exitCode : Option Int) : String :=
  if strContains stderrBlob "No supported JavaScript runtime" then
    "Missing compliant JS Runtime"
  else if strContains stderrBlob "Sign in to confirm" then
    "Authentication Required"
  else
    "Process Failed (Exit Code " ++ (⟨intToChars (exitCode.getD (-1))⟩ : String) ++ ")"

/-- The `general` config fields the worker command builder reads. -/
structure WorkerConfig where
  useConcurrentFragments : Bool := false
  concurrentFragments : Nat := 4
  cookiesPath : Option String := none
  cookiesFromBrowser : Option String := none
deriving DecidableEq, Repr

/-- The `[height<=N]` filter (process.rs lines 282-285); Rust
`char::is_numeric` modelled as ASCII digits. -/
def heightFilter (videoResolution : String) : String :=
  if videoResolution ≠ "best" then
    let numberPart : List Char := videoResolution.data.filter isAsciiDigitChar
    if numberPart ≠ [] then "[height<=" ++ (⟨numberPart⟩ : String) ++ "]" else ""
  else ""

/-- Format-preset arguments (process.rs lines 287-307). -/
def presetArgs (preset : FormatPreset) (hf : String) : List String :=
  match preset with
  | .best => if hf ≠ "" then ["-f", "bestvideo" ++ hf ++ "+bestaudio/best" ++ hf] else []
  | .bestMp4 => ["-f", "bestvideo" ++ hf ++ "+bestaudio", "--merge-output-format", "mp4"]
  | .bestMkv => ["-f", "bestvideo" ++ hf ++ "+bestaudio", "--merge-output-format", "mkv"]
  | .bestWebm => ["-f", "bestvideo" ++ hf ++ "+bestaudio", "--merge-output-format", "webm"]
  | .audioBest => ["-x", "-f", "bestaudio/best"]
  | .audioMp3 => ["-x", "--audio-format", "mp3", "--audio-quality", "0"]
  | .audioFlac => ["-x", "--audio-format", "flac", "--audio-quality", "0"]
  | .audioM4a => ["-x", "--audio-format", "m4a", "--audio-quality", "0"]

/-- The argument list built for one tool invocation (process.rs lines
242-307; the JS-runtime probe of lines 231-240 is environment-dependent and
out of the model's scope). -/
def buildArgs (cfgw : WorkerConfig) (job : QueuedJob) : List String :=
  (match cfgw.cookiesPath with
   | some p => if (rustTrim p).data ≠ [] then ["--cookies", p] else []
   | none => match cfgw.cookiesFromBrowser with
     | some b => if (rustTrim b).data ≠ [] && b ≠ "none" then
         ["--cookies-from-browser", b]
       else []
     | none => []) ++
  (if cfgw.useConcurrentFragments then
      ["-N", (⟨natToChars cfgw.concurrentFragments⟩ : String)]
    else ["-N", "1"]) ++
  [job.url, "-o", job.filenameTemplate, "--no-playlist", "--no-simulate",
   "--newline", "--windows-filenames", "--encoding", "utf-8", "--progress",
   "--progress-template", "download:%(progress)j", "--print",
   "after_move:filepath"] ++
  (if job.restrictFilenames then ["--restrict-filenames", "--trim-filenames", "200"]
   else []) ++
  (if job.embedMetadata then ["--embed-metadata"] else []) ++
  (if job.embedThumbnail then ["--embed-thumbnail"] else []) ++
  (if job.liveFromStart then ["--live-from-start"] else []) ++
  presetArgs job.formatPreset (heightFilter job.videoResolution)

/-- Outcome of one tool invocation, as seen by the classification code. -/
structure AttemptOutcome where
  exitSuccess : Bool
  exitCode : Option Int := none
  logBlob : String := ""
  stderrBlob : String := ""
deriving DecidableEq, Repr

/-- The spawn-and-classify loop of `run_download_process` (process.rs lines
185-590), restricted to invocations and the non-zero-exit classification
(lines 566-589): each iteration invokes the tool with the current
`restrict_filenames`; on non-zero exit, if `FILESYSTEM_ERROR_REGEX` matches
the captured output and `restrict_filenames` was not already set, set it and
loop back; otherwise emit a `JobError` and stop.  Returns the argument list
of every invocation made and the terminal events. -/
def workerRetryLoop (cfgw : WorkerConfig) (job : QueuedJob) :
    List AttemptOutcome → List (List String) × List WorkerEvent
  | [] => ([], [])
  | a :: rest =>
    let args := buildArgs cfgw job
    if a.exitSuccess then ([args], [.completedEv ""])
    else if ! job.restrictFilenames && filesystemErrorMatch a.logBlob then
      let r := workerRetryLoop cfgw { job with restrictFilenames := true } rest
      (args :: r.1, r.2)
    else
      ([args], [.errorEv (shortErrorMessage a.stderrBlob a.exitCode)])

/-! ## Probe concurrency (`commands/downloader.rs`) -/

/-- Abstract state of concurrent probe-running commands: commands invoked
but not yet probing, and probe subprocesses in flight. -/
structure ProbeState where
  waitingCommands : Nat
  inFlightProbes : Nat
deriving DecidableEq, Repr

/-- The probe call sites (`expand_playlist` lines 138-153 and
`start_download` lines 190-193) call `spawn_blocking(probe_url)` with no
semaphore or any other gate: an arrived command may begin its probe at any
time, so the only transitions are command arrival, ungated probe start, and
probe completion. -/
inductive ProbeStep : ProbeState → ProbeState → Prop where
  | arrive (w p : Nat) : ProbeStep ⟨w, p⟩ ⟨w + 1, p⟩
  | beginProbe (w p : Nat) : ProbeStep ⟨w + 1, p⟩ ⟨w, p + 1⟩
  | finishProbe (w p : Nat) : ProbeStep ⟨w, p + 1⟩ ⟨w, p⟩

/-- States reachable from no commands and no probes. -/
inductive ProbeReachable : ProbeState → Prop where
  | init : ProbeReachable ⟨0, 0⟩
  | step {s t : ProbeState} (h : ProbeReachable s) (hs : ProbeStep s t) :
      ProbeReachable t


/-! # Theorems -/

/-! ## Lemmas about association lists -/

theorem lookupEntry_eraseEntry {α : Type} (l : List (Nat × α)) (k id : Nat) :
    lookupEntry (eraseEntry l k) id = if k = id then none else lookupEntry l id := by
  induction l with
  | nil => by_cases h : k = id <;> simp [eraseEntry, lookupEntry, h]
  | cons hd tl ih =>
    obtain ⟨k', v⟩ := hd
    by_cases hk : k' = k
    · subst hk
      by_cases hid : k' = id
      · subst hid; simp [eraseEntry, lookupEntry, ih]
      · simp [eraseEntry, lookupEntry, hid, ih]
    · by_cases hid : k' = id
      · subst hid
        have hk2 : ¬ k = k' := fun h => hk h.symm
        simp [eraseEntry, lookupEntry, hk, hk2]
      · simp [eraseEntry, lookupEntry, hk, hid, ih]

theorem lookupEntry_insertEntry {α : Type} (l : List (Nat × α)) (k id : Nat) (v : α) :
    lookupEntry (insertEntry l k v) id = if k = id then some v else lookupEntry l id := by
  by_cases h : k = id <;>
    simp [insertEntry, lookupEntry, lookupEntry_eraseEntry, h]

theorem lookupEntry_updateEntry {α : Type} (l : List (Nat × α)) (k id : Nat) (f : α → α) :
    lookupEntry (updateEntry l k f) id =
      if k = id then (lookupEntry l id).map f else lookupEntry l id := by
  induction l with
  | nil => by_cases h : k = id <;> simp [updateEntry, lookupEntry, h]
  | cons hd tl ih =>
    obtain ⟨k', v⟩ := hd
    by_cases hk : k' = k
    · subst hk
      by_cases hid : k' = id
      · subst hid; simp [updateEntry, lookupEntry]
      · simp [updateEntry, lookupEntry, hid, ih]
    · by_cases hid : k' = id
      · subst hid
        have hk2 : ¬ k = k' := fun h => hk h.symm
        simp [updateEntry, lookupEntry, hk, hk2]
      · simp [updateEntry, lookupEntry, hk, hid, ih]

/-! ## Lemmas about URL helpers -/

theorem char_toNat_lt (c : Char) : c.toNat < 1114112 := by
  rcases c.valid with h | h
  · exact Nat.lt_trans h (by norm_num)
  · exact h.2

theorem charOfNatToNat (n : Nat) (h2 : n < 55296) : (Char.ofNat n).toNat = n := by
  have hv : n.isValidChar := Or.inl h2
  simp [Char.ofNat, hv, Char.toNat, Char.ofNatAux, UInt32.toNat, BitVec.toNat_ofNatLt]

theorem dropWhile_head_not (p : Char → Bool) (xs : List Char) :
    ∀ c, (xs.dropWhile p).head? = some c → p c = false := by
  induction xs with
  | nil => intro c h; simp [List.dropWhile] at h
  | cons a t ih =>
    intro c h
    simp only [List.dropWhile] at h
    split at h
    · exact ih c h
    · next hp =>
      simp only [List.head?_cons, Option.some_inj] at h
      subst h
      simpa using hp

theorem dropWhile_eq_self_of_head (p : Char → Bool) (xs : List Char)
    (h : ∀ c, xs.head? = some c → p c = false) : xs.dropWhile p = xs := by
  cases xs with
  | nil => rfl
  | cons a t => simp [List.dropWhile, h a rfl]

theorem dropWhile_all_not (p : Char → Bool) (xs : List Char)
    (h : ∀ c ∈ xs, p c = false) : xs.dropWhile p = xs := by
  cases xs with
  | nil => rfl
  | cons a t => simp [List.dropWhile, h a (by simp)]

theorem trimLeadBy_eq_self (p : Char → Bool) (xs : List Char)
    (h : ∀ c ∈ xs, p c = false) : trimLeadBy p xs = xs :=
  dropWhile_all_not p xs h

theorem trimEndBy_eq_self (p : Char → Bool) (xs : List Char)
    (h : ∀ c ∈ xs, p c = false) : trimEndBy p xs = xs := by
  unfold trimEndBy
  rw [dropWhile_all_not p _ (fun c hc => h c (List.mem_reverse.mp hc)),
    List.reverse_reverse]

theorem trimEndBy_append (p : Char → Bool) (xs : List Char) :
    ∃ zs, xs = trimEndBy p xs ++ zs := by
  refine ⟨(xs.reverse.takeWhile p).reverse, ?_⟩
  unfold trimEndBy
  conv_lhs => rw [← List.reverse_reverse xs,
    ← List.takeWhile_append_dropWhile (p := p) (l := xs.reverse)]
  rw [List.reverse_append]

theorem mem_trimEndBy (p : Char → Bool) (xs : List Char) (c : Char)
    (h : c ∈ trimEndBy p xs) : c ∈ xs := by
  obtain ⟨zs, hz⟩ := trimEndBy_append p xs
  rw [hz]
  exact List.mem_append_left _ h

theorem mem_trimLeadBy (p : Char → Bool) (xs : List Char) (c : Char)
    (h : c ∈ trimLeadBy p xs) : c ∈ xs := by
  induction xs with
  | nil => simpa [trimLeadBy] using h
  | cons a t ih =>
    simp only [trimLeadBy, List.dropWhile] at h
    split at h
    · exact List.mem_cons_of_mem _ (ih h)
    · exact h

theorem printable_not_ws (c : Char) (h : printableChar c = true) :
    isRustWhitespace c = false := by
  simp only [printableChar, Bool.and_eq_true, decide_eq_true_eq] at h
  simp only [isRustWhitespace, Bool.or_eq_false_iff, Bool.and_eq_false_iff,
    decide_eq_false_iff_not]
  omega

theorem rustTrim_eq_self (s : String) (h : ∀ c ∈ s.data, isRustWhitespace c = false) :
    rustTrim s = s := by
  unfold rustTrim
  rw [trimLeadBy_eq_self _ _ h, trimEndBy_eq_self _ _ h]

theorem dropWhile_dropWhile (p : Char → Bool) (xs : List Char) :
    (xs.dropWhile p).dropWhile p = xs.dropWhile p :=
  dropWhile_eq_self_of_head p _ (dropWhile_head_not p xs)

theorem trimEndBy_idem (p : Char → Bool) (xs : List Char) :
    trimEndBy p (trimEndBy p xs) = trimEndBy p xs := by
  unfold trimEndBy
  rw [List.reverse_reverse, dropWhile_dropWhile]

theorem head?_of_prefix (xs zs : List Char) (c : Char)
    (h : (xs ++ zs).head? = some c) (hne : xs ≠ []) : xs.head? = some c := by
  cases xs with
  | nil => exact absurd rfl hne
  | cons a t => simpa using h

theorem rustTrim_idem (s : String) : rustTrim (rustTrim s) = rustTrim s := by
  unfold rustTrim
  have hlead : ∀ c, (trimEndBy isRustWhitespace
      (trimLeadBy isRustWhitespace s.data)).head? = some c →
      isRustWhitespace c = false := by
    intro c hc
    obtain ⟨zs, hz⟩ := trimEndBy_append isRustWhitespace
      (trimLeadBy isRustWhitespace s.data)
    by_cases hne : trimEndBy isRustWhitespace (trimLeadBy isRustWhitespace s.data) = []
    · rw [hne] at hc; simp at hc
    · have hh : (trimLeadBy isRustWhitespace s.data).head? = some c := by
        rw [hz]
        cases he : trimEndBy isRustWhitespace (trimLeadBy isRustWhitespace s.data) with
        | nil => exact absurd he hne
        | cons a t =>
          rw [he] at hc
          simpa using hc
      exact dropWhile_head_not isRustWhitespace s.data c hh
  have h1 : trimLeadBy isRustWhitespace (trimEndBy isRustWhitespace
      (trimLeadBy isRustWhitespace s.data)) =
      trimEndBy isRustWhitespace (trimLeadBy isRustWhitespace s.data) :=
    dropWhile_eq_self_of_head _ _ hlead
  simp only [h1]
  rw [trimEndBy_idem]

theorem dropToSep_length : ∀ (xs r : List Char), dropToSep xs = some r →
    r.length < xs.length := by
  intro xs
  induction xs with
  | nil => intro r h; simp [dropToSep] at h
  | cons c rest ih =>
    intro r h
    simp only [dropToSep] at h
    split at h
    · cases h
      have := List.length_drop 2 rest
      simp [this]
      omega
    · have := ih r h
      simp
      omega

theorem listStartsWith_append (pat xs ys : List Char)
    (h : listStartsWith pat xs = true) : listStartsWith pat (xs ++ ys) = true := by
  induction pat generalizing xs with
  | nil => rfl
  | cons p ps ih =>
    cases xs with
    | nil => simp [listStartsWith] at h
    | cons a t =>
      simp only [List.cons_append, listStartsWith, Bool.and_eq_true] at h ⊢
      exact ⟨h.1, ih t h.2⟩

theorem hasSep_append_left (xs ys : List Char) (h : hasSep xs = true) :
    hasSep (xs ++ ys) = true := by
  induction xs with
  | nil => simp [hasSep] at h
  | cons a t ih =>
    simp only [List.cons_append, hasSep, Bool.or_eq_true, Bool.and_eq_true] at h ⊢
    rcases h with ⟨h1, h2⟩ | h
    · exact Or.inl ⟨h1, listStartsWith_append _ _ _ h2⟩
    · exact Or.inr (ih h)

theorem hasSep_of_prefix (xs ys : List Char) (h : hasSep (xs ++ ys) = false) :
    hasSep xs = false := by
  cases hx : hasSep xs with
  | false => rfl
  | true => rw [hasSep_append_left xs ys hx] at h; exact h

theorem dropToSep_eq_none_iff (xs : List Char) :
    dropToSep xs = none ↔ hasSep xs = false := by
  induction xs with
  | nil => simp [dropToSep, hasSep]
  | cons a t ih =>
    simp only [dropToSep, hasSep]
    split
    · next hcond => simp [hcond]
    · next hcond =>
      simp only [Bool.or_eq_false_iff]
      constructor
      · intro h
        exact ⟨by simpa using hcond, (ih.mp h)⟩
      · intro h
        exact ih.mpr h.2

theorem dropToSep_mem (xs r : List Char) (h : dropToSep xs = some r) :
    ∀ c ∈ r, c ∈ xs := by
  induction xs with
  | nil => simp [dropToSep] at h
  | cons a t ih =>
    simp only [dropToSep] at h
    split at h
    · cases h
      intro c hc
      exact List.mem_cons_of_mem _ (List.mem_of_mem_drop hc)
    · intro c hc
      exact List.mem_cons_of_mem _ (ih h c hc)

theorem hasSep_afterLastSepAux (fuel : Nat) : ∀ xs : List Char, xs.length ≤ fuel →
    hasSep (afterLastSepAux fuel xs) = false := by
  induction fuel with
  | zero =>
    intro xs h
    have hx : xs = [] := List.eq_nil_of_length_eq_zero (Nat.le_zero.mp h)
    subst hx
    simp [afterLastSepAux, hasSep]
  | succ n ih =>
    intro xs h
    cases hd : dropToSep xs with
    | some r =>
      have hlen := dropToSep_length xs r hd
      simp only [afterLastSepAux, hd]
      exact ih r (by omega)
    | none =>
      simp only [afterLastSepAux, hd]
      exact (dropToSep_eq_none_iff xs).mp hd

theorem hasSep_afterLastSep (xs : List Char) : hasSep (afterLastSep xs) = false :=
  hasSep_afterLastSepAux xs.length xs (Nat.le_refl _)

theorem mem_afterLastSepAux (fuel : Nat) : ∀ (xs : List Char) (c : Char),
    c ∈ afterLastSepAux fuel xs → c ∈ xs := by
  induction fuel with
  | zero => intro xs c h; simpa [afterLastSepAux] using h
  | succ n ih =>
    intro xs c h
    cases hd : dropToSep xs with
    | some r =>
      simp only [afterLastSepAux, hd] at h
      exact dropToSep_mem xs r hd c (ih r c h)
    | none =>
      simpa only [afterLastSepAux, hd] using h

theorem mem_afterLastSep (xs : List Char) (c : Char) (h : c ∈ afterLastSep xs) :
    c ∈ xs :=
  mem_afterLastSepAux xs.length xs c h

theorem splitFirst_sep_hasSep (cs : List Char) : ∀ (sc r1 : List Char),
    splitFirst ':' cs = some (sc, r1) → listStartsWith ['/', '/'] r1 = true →
    hasSep cs = true := by
  induction cs with
  | nil => intro sc r1 h _; simp [splitFirst] at h
  | cons a t ih =>
    intro sc r1 h hs
    simp only [splitFirst] at h
    split at h
    · next he =>
      cases h
      simp [hasSep, he, hs]
    · next he =>
      cases ht : splitFirst ':' t with
      | none => rw [ht] at h; simp at h
      | some p =>
        rw [ht] at h
        simp only [Option.map] at h
        have h2 : p.2 = r1 := congrArg Prod.snd (Option.some.inj h)
        simp only [hasSep, Bool.or_eq_true]
        exact Or.inr (ih p.1 p.2 (by rw [ht]) (by rw [h2]; exact hs))

theorem printable_not_c0 (c : Char) (h : printableChar c = true) :
    isC0OrSpace c = false := by
  simp only [printableChar, Bool.and_eq_true, decide_eq_true_eq] at h
  simp only [isC0OrSpace, decide_eq_false_iff_not]
  omega

theorem printable_not_tabnl (c : Char) (h : printableChar c = true) :
    isTabOrNewline c = false := by
  simp only [printableChar, Bool.and_eq_true, decide_eq_true_eq] at h
  simp only [isTabOrNewline, Bool.or_eq_false_iff, decide_eq_false_iff_not]
  omega

theorem urlPreprocess_eq_self (xs : List Char)
    (h : ∀ c ∈ xs, printableChar c = true) : urlPreprocess xs = xs := by
  unfold urlPreprocess
  rw [trimLeadBy_eq_self _ _ (fun c hc => printable_not_c0 c (h c hc)),
    trimEndBy_eq_self _ _ (fun c hc => printable_not_c0 c (h c hc))]
  rw [List.filter_eq_self.mpr]
  intro a ha
  simp [printable_not_tabnl a (h a ha)]

theorem parseUrl_eq_none_of_printable_noSep (s : String)
    (hp : ∀ c ∈ s.data, printableChar c = true) (hs : hasSep s.data = false) :
    parseUrl s = none := by
  unfold parseUrl
  rw [urlPreprocess_eq_self s.data hp]
  unfold parseUrlTail
  cases hsp : splitFirst ':' s.data with
  | none => rfl
  | some p =>
    obtain ⟨sc, r1⟩ := p
    cases sc with
    | nil => rfl
    | cons c0 scr =>
      dsimp only
      split
      · split
        · exact absurd (splitFirst_sep_hasSep s.data _ _ hsp
            (by simp [listStartsWith])) (by simp [hs])
        · rfl
      · rfl

/-! ## Printability of the serialiser -/

theorem printable_hexDigitChar : ∀ n < 16, printableChar (hexDigitChar n) = true := by
  decide

theorem utf8Bytes_lt (c : Char) : ∀ b ∈ utf8Bytes c, b < 256 := by
  intro b hb
  have hc := char_toNat_lt c
  simp only [utf8Bytes] at hb
  split at hb
  · simp at hb; omega
  · split at hb
    · simp at hb; rcases hb with h | h <;> omega
    · split at hb
      · simp at hb; rcases hb with h | h | h <;> omega
      · simp at hb; rcases hb with h | h | h | h <;> omega

theorem printable_pctEncodeByte (b : Nat) (h : b < 256) :
    ∀ c ∈ pctEncodeByte b, printableChar c = true := by
  intro c hc
  simp only [pctEncodeByte, List.mem_cons, List.not_mem_nil, or_false] at hc
  rcases hc with h1 | h1 | h1
  · subst h1; decide
  · subst h1; exact printable_hexDigitChar _ (by omega)
  · subst h1; exact printable_hexDigitChar _ (by omega)

theorem printable_pctEncodeChar (a : Char) : ∀ c ∈ pctEncodeChar a,
    printableChar c = true := by
  intro c hc
  simp only [pctEncodeChar, List.mem_flatMap] at hc
  obtain ⟨b, hb, hcb⟩ := hc
  exact printable_pctEncodeByte b (utf8Bytes_lt a b hb) c hcb

theorem printable_encodeWith (inSet : Char → Bool)
    (hset : ∀ c, inSet c = false → printableChar c = true) (xs : List Char) :
    ∀ c ∈ encodeWith inSet xs, printableChar c = true := by
  intro c hc
  simp only [encodeWith, List.mem_flatMap] at hc
  obtain ⟨a, _, ha⟩ := hc
  split at ha
  · exact printable_pctEncodeChar a c ha
  · next hf =>
    simp only [List.mem_cons, List.not_mem_nil, or_false] at ha
    subst ha
    exact hset _ (by simpa using hf)

theorem pathSet_printable : ∀ c, inPathEncodeSet c = false → printableChar c = true := by
  intro c h
  simp only [inPathEncodeSet, inFragmentEncodeSet, inC0EncodeSet,
    Bool.or_eq_false_iff, decide_eq_false_iff_not] at h
  simp only [printableChar, Bool.and_eq_true, decide_eq_true_eq]
  omega

theorem querySet_printable : ∀ c, inQueryEncodeSet c = false → printableChar c = true := by
  intro c h
  simp only [inQueryEncodeSet, inC0EncodeSet,
    Bool.or_eq_false_iff, decide_eq_false_iff_not] at h
  simp only [printableChar, Bool.and_eq_true, decide_eq_true_eq]
  omega

theorem fragmentSet_printable : ∀ c, inFragmentEncodeSet c = false →
    printableChar c = true := by
  intro c h
  simp only [inFragmentEncodeSet, inC0EncodeSet,
    Bool.or_eq_false_iff, decide_eq_false_iff_not] at h
  simp only [printableChar, Bool.and_eq_true, decide_eq_true_eq]
  omega

theorem printable_asciiLower (c : Char) (h : printableChar c = true) :
    printableChar (asciiLower c) = true := by
  simp only [printableChar, Bool.and_eq_true, decide_eq_true_eq] at h
  unfold asciiLower
  split
  · next hu =>
    simp only [isAsciiUpper, Bool.and_eq_true, decide_eq_true_eq] at hu
    simp only [printableChar, Bool.and_eq_true, decide_eq_true_eq]
    rw [charOfNatToNat _ (by omega)]
    omega
  · simp only [printableChar, Bool.and_eq_true, decide_eq_true_eq]
    omega

theorem schemeChar_printable (c : Char) (h : isSchemeChar c = true) :
    printableChar c = true := by
  simp only [isSchemeChar, isAsciiAlpha, isAsciiUpper, isAsciiLowerChar,
    isAsciiDigitChar, Bool.or_eq_true, Bool.and_eq_true, decide_eq_true_eq] at h
  simp only [printableChar, Bool.and_eq_true, decide_eq_true_eq]
  omega

theorem hostChar_printable (c : Char) (h : isHostChar c = true) :
    printableChar c = true := by
  simp only [isHostChar, isAsciiAlpha, isAsciiUpper, isAsciiLowerChar,
    isAsciiDigitChar, Bool.or_eq_true, Bool.and_eq_true, decide_eq_true_eq] at h
  simp only [printableChar, Bool.and_eq_true, decide_eq_true_eq]
  omega

theorem printable_formEncodeChar (c : Char) : ∀ d ∈ formEncodeChar c,
    printableChar d = true := by
  intro d hd
  simp only [formEncodeChar] at hd
  split at hd
  · simp only [List.mem_cons, List.not_mem_nil, or_false] at hd
    subst hd; decide
  · split at hd
    · next hsafe =>
      simp only [List.mem_cons, List.not_mem_nil, or_false] at hd
      subst hd
      simp only [isFormSafe, isAsciiAlpha, isAsciiUpper, isAsciiLowerChar,
        isAsciiDigitChar, Bool.or_eq_true, Bool.and_eq_true, decide_eq_true_eq] at hsafe
      simp only [printableChar, Bool.and_eq_true, decide_eq_true_eq]
      omega
    · simp only [List.mem_flatMap] at hd
      obtain ⟨b, hb, hdb⟩ := hd
      exact printable_pctEncodeByte b (utf8Bytes_lt c b hb) d hdb

theorem printable_formEncode (xs : List Char) : ∀ c ∈ formEncode xs,
    printableChar c = true := by
  intro c hc
  simp only [formEncode, List.mem_flatMap] at hc
  obtain ⟨a, _, ha⟩ := hc
  exact printable_formEncodeChar a c ha

theorem printable_natToCharsAux (fuel : Nat) : ∀ (n : Nat) (acc : List Char),
    (∀ c ∈ acc, printableChar c = true) →
    ∀ c ∈ natToCharsAux fuel n acc, printableChar c = true := by
  induction fuel with
  | zero => intro n acc h c hc; exact h c hc
  | succ f ih =>
    intro n acc h c hc
    simp only [natToCharsAux] at hc
    split at hc
    · exact h c hc
    · refine ih _ _ ?_ c hc
      intro d hd
      rcases List.mem_cons.mp hd with h1 | h1
      · subst h1
        simp only [printableChar, Bool.and_eq_true, decide_eq_true_eq]
        rw [charOfNatToNat _ (by omega)]
        omega
      · exact h d h1

theorem printable_natToChars (n : Nat) : ∀ c ∈ natToChars n, printableChar c = true := by
  unfold natToChars
  split
  · intro c hc
    simp only [List.mem_cons, List.not_mem_nil, or_false] at hc
    subst hc; decide
  · exact printable_natToCharsAux n n [] (by simp)

theorem joinWith_mem (sep : List Char) (ls : List (List Char)) (c : Char)
    (h : c ∈ joinWith sep ls) : c ∈ sep ∨ ∃ l ∈ ls, c ∈ l := by
  induction ls with
  | nil => simp [joinWith] at h
  | cons x rest ih =>
    cases rest with
    | nil =>
      right
      exact ⟨x, by simp, by simpa [joinWith] using h⟩
    | cons y more =>
      simp only [joinWith, List.append_assoc, List.mem_append] at h
      rcases h with h | h | h
      · right; exact ⟨x, by simp, h⟩
      · left; exact h
      · rcases ih (by simpa [joinWith] using h) with h2 | ⟨l, hl, hc2⟩
        · left; exact h2
        · right; exact ⟨l, List.mem_cons_of_mem _ hl, hc2⟩

theorem printable_renderPairs (ps : List (String × String)) :
    printableStr (renderPairs ps) = true := by
  simp only [printableStr, renderPairs, List.all_eq_true]
  intro c hc
  rcases joinWith_mem _ _ c hc with h | ⟨l, hl, hcl⟩
  · simp only [List.mem_cons, List.not_mem_nil, or_false] at h
    subst h; decide
  · simp only [List.mem_map] at hl
    obtain ⟨p, _, hp⟩ := hl
    subst hp
    simp only [List.mem_append, List.mem_cons] at hcl
    rcases hcl with h | h | h
    · exact printable_formEncode _ c h
    · subst h; decide
    · exact printable_formEncode _ c h

theorem printableStr_mem (q : String) (hq : printableStr q = true) :
    ∀ c ∈ q.data, printableChar c = true := by
  simpa only [printableStr, List.all_eq_true] using hq

theorem pathCharsOf_eq_nil (u : ModelUrl) (h : u.pathSegments = []) :
    pathCharsOf u = (if isSpecialScheme u.scheme then ['/'] else []) := by
  unfold pathCharsOf
  rw [h]

theorem pathCharsOf_eq_cons (u : ModelUrl) (seg : String) (more : List String)
    (h : u.pathSegments = seg :: more) :
    pathCharsOf u = '/' :: joinWith ['/'] ((seg :: more).map String.data) := by
  unfold pathCharsOf
  rw [h]

theorem renderChars_printable (u : ModelUrl) (hwf : u.WF = true) :
    ∀ c ∈ u.renderChars, printableChar c = true := by
  unfold ModelUrl.WF at hwf
  simp only [Bool.and_eq_true] at hwf
  obtain ⟨⟨⟨⟨hs, hh⟩, hp⟩, hq⟩, hf⟩ := hwf
  intro c hc
  unfold ModelUrl.renderChars at hc
  simp only [List.append_assoc, List.mem_append, List.mem_cons] at hc
  rcases hc with h | h
  · exact printableStr_mem _ hs c h
  rcases h with h | h
  · rcases h with h | h | h | h
    · subst h; decide
    · subst h; decide
    · subst h; decide
    · exact printableStr_mem _ hh c h
  rcases h with h | h
  · cases hport : u.port with
    | none => rw [hport] at h; simp at h
    | some p =>
      rw [hport] at h
      simp only [List.mem_cons] at h
      rcases h with h | h
      · subst h; decide
      · exact printable_natToChars p c h
  rcases h with h | h
  · cases hsegs : u.pathSegments with
    | nil =>
      rw [pathCharsOf_eq_nil u hsegs] at h
      split at h
      · simp only [List.mem_cons, List.not_mem_nil, or_false] at h
        subst h; decide
      · simp at h
    | cons seg more =>
      rw [pathCharsOf_eq_cons u seg more hsegs] at h
      simp only [List.mem_cons] at h
      rcases h with h | h
      · subst h; decide
      · rcases joinWith_mem _ _ c h with h2 | ⟨l, hl, hcl⟩
        · simp only [List.mem_cons, List.not_mem_nil, or_false] at h2
          subst h2; decide
        · simp only [List.mem_map] at hl
          obtain ⟨str, hstr, hld⟩ := hl
          subst hld
          have hstr2 : printableStr str = true := by
            have halt := List.all_eq_true.mp hp
            exact halt str (by rw [hsegs]; exact hstr)
          exact printableStr_mem _ hstr2 c hcl
  rcases h with h | h
  · cases hquery : u.query with
    | none => rw [hquery] at h; simp at h
    | some q =>
      rw [hquery] at h
      simp only [List.mem_cons] at h
      rcases h with h | h
      · subst h; decide
      · rw [hquery] at hq
        exact printableStr_mem _ hq c h
  · cases hfrag : u.fragment with
    | none => rw [hfrag] at h; simp at h
    | some f =>
      rw [hfrag] at h
      simp only [List.mem_cons] at h
      rcases h with h | h
      · subst h; decide
      · rw [hfrag] at hf
        exact printableStr_mem _ hf c h

theorem parseHostChars_printable (cs : List Char) (hstr : String)
    (h : parseHostChars cs = some hstr) : printableStr hstr = true := by
  unfold parseHostChars at h
  split at h
  · cases h
  · split at h
    · next hall =>
      dsimp only at h
      have hout : hstr = (⟨cs.map asciiLower⟩ : String) := by
        split at h
        · split at h
          · cases h
          · exact (Option.some.inj h).symm
        · exact (Option.some.inj h).symm
      subst hout
      simp only [printableStr, List.all_eq_true]
      intro c hc
      simp only [List.mem_map] at hc
      obtain ⟨d, hd, hdc⟩ := hc
      subst hdc
      exact printable_asciiLower d
        (hostChar_printable d (List.all_eq_true.mp hall d hd))
    · cases h

theorem parseHostPort_printable (authority : List Char) (hstr : String)
    (port : Option Nat) (h : parseHostPort authority = some (hstr, port)) :
    printableStr hstr = true := by
  unfold parseHostPort at h
  split at h
  · split at h
    · split at h
      · next hh =>
        dsimp only at h
        split at h
        · have := Option.some.inj h
          have h2 := congrArg Prod.fst this
          dsimp only at h2
          subst h2
          exact parseHostChars_printable _ _ hh
        · split at h
          · have := Option.some.inj h
            have h2 := congrArg Prod.fst this
            dsimp only at h2
            subst h2
            exact parseHostChars_printable _ _ hh
          · cases h
      · cases h
    · cases h
  · cases hpc : parseHostChars authority with
    | none => rw [hpc] at h; cases h
    | some h2 =>
      rw [hpc] at h
      simp only [Option.map] at h
      have := Option.some.inj h
      have hh2 : h2 = hstr := congrArg Prod.fst this
      subst hh2
      exact parseHostChars_printable _ _ hpc

theorem resolveDotsAux_mem (segs : List String) : ∀ (acc : List String) (s : String),
    s ∈ resolveDotsAux acc segs → s ∈ acc ∨ s ∈ segs ∨ s = "" := by
  induction segs with
  | nil => intro acc s h; exact Or.inl (by simpa [resolveDotsAux] using h)
  | cons seg rest ih =>
    intro acc s h
    simp only [resolveDotsAux] at h
    split at h
    · split at h
      · simp only [List.mem_append, List.mem_cons, List.not_mem_nil, or_false] at h
        rcases h with h | h
        · exact Or.inl ((List.dropLast_sublist _).subset h)
        · exact Or.inr (Or.inr h)
      · rcases ih _ s h with h2 | h2 | h2
        · exact Or.inl ((List.dropLast_sublist _).subset h2)
        · exact Or.inr (Or.inl (List.mem_cons_of_mem _ h2))
        · exact Or.inr (Or.inr h2)
    · split at h
      · split at h
        · simp only [List.mem_append, List.mem_cons, List.not_mem_nil, or_false] at h
          rcases h with h | h
          · exact Or.inl h
          · exact Or.inr (Or.inr h)
        · rcases ih _ s h with h2 | h2 | h2
          · exact Or.inl h2
          · exact Or.inr (Or.inl (List.mem_cons_of_mem _ h2))
          · exact Or.inr (Or.inr h2)
      · rcases ih _ s h with h2 | h2 | h2
        · simp only [List.mem_append, List.mem_cons, List.not_mem_nil, or_false] at h2
          rcases h2 with h2 | h2
          · exact Or.inl h2
          · exact Or.inr (Or.inl (by rw [h2]; exact List.mem_cons_self _ _))
        · exact Or.inr (Or.inl (List.mem_cons_of_mem _ h2))
        · exact Or.inr (Or.inr h2)

theorem parsePathSegs_printable (special : Bool) (pathRaw : List Char) :
    (parsePathSegs special pathRaw).all printableStr = true := by
  unfold parsePathSegs
  simp only [List.all_eq_true]
  intro str hstr
  split at hstr
  · rcases resolveDotsAux_mem _ _ _ hstr with h2 | h2 | h2
    · simp at h2
    · simp only [List.mem_map] at h2
      obtain ⟨raw, _, hrw⟩ := h2
      subst hrw
      simp only [printableStr, List.all_eq_true]
      exact fun c hc => printable_encodeWith _ pathSet_printable _ c hc
    · subst h2; decide
  · simp at hstr

theorem parseQueryFrag_q (t : List Char) :
    parseQueryFrag ('?' :: t) =
      (some (⟨encodeWith inQueryEncodeSet (t.takeWhile (fun c => c.toNat ≠ 35))⟩ : String),
       match t.drop (t.takeWhile (fun c => c.toNat ≠ 35)).length with
       | _ :: ft => some (⟨encodeWith inFragmentEncodeSet ft⟩ : String)
       | [] => none) := rfl

theorem parseQueryFrag_ne (a : Char) (t : List Char) (ha : ¬ a = '?') :
    parseQueryFrag (a :: t) =
      (none, some (⟨encodeWith inFragmentEncodeSet t⟩ : String)) := by
  simp only [parseQueryFrag]

theorem parseQueryFrag_printable (afterPath : List Char) :
    (match (parseQueryFrag afterPath).1 with
      | some q => printableStr q | none => true) = true ∧
    (match (parseQueryFrag afterPath).2 with
      | some f => printableStr f | none => true) = true := by
  cases afterPath with
  | nil => exact ⟨rfl, rfl⟩
  | cons a t =>
    by_cases ha : a = '?'
    · subst ha
      rw [parseQueryFrag_q]
      dsimp only
      constructor
      · simp only [printableStr, List.all_eq_true]
        exact fun c hc => printable_encodeWith _ querySet_printable _ c hc
      · cases hdrop : t.drop (t.takeWhile (fun c => c.toNat ≠ 35)).length with
        | nil => rfl
        | cons hd ft =>
          show printableStr ⟨encodeWith inFragmentEncodeSet ft⟩ = true
          simp only [printableStr, List.all_eq_true]
          exact fun c hc => printable_encodeWith _ fragmentSet_printable _ c hc
    · rw [parseQueryFrag_ne a t ha]
      refine ⟨rfl, ?_⟩
      simp only [printableStr, List.all_eq_true]
      exact fun c hc => printable_encodeWith _ fragmentSet_printable _ c hc

theorem parseWithScheme_WF (schemeCs rest2 : List Char) (u : ModelUrl)
    (hscheme : schemeCs.all isSchemeChar = true)
    (h : parseWithScheme schemeCs rest2 = some u) : u.WF = true := by
  unfold parseWithScheme at h
  dsimp only at h
  split at h
  · cases h
  · split at h
    · cases h
    · next host port heq =>
      have hu := (Option.some.inj h).symm
      subst hu
      unfold ModelUrl.WF
      simp only [Bool.and_eq_true]
      refine ⟨⟨⟨⟨?_, ?_⟩, ?_⟩, ?_⟩, ?_⟩
      · simp only [printableStr, List.all_eq_true]
        intro c hc
        simp only [List.mem_map] at hc
        obtain ⟨d, hd, hdc⟩ := hc
        subst hdc
        exact printable_asciiLower d
          (schemeChar_printable d (List.all_eq_true.mp hscheme d hd))
      · exact parseHostPort_printable _ _ _ heq
      · exact parsePathSegs_printable _ _
      · exact (parseQueryFrag_printable _).1
      · exact (parseQueryFrag_printable _).2

theorem parseUrl_WF (s : String) (u : ModelUrl) (h : parseUrl s = some u) :
    u.WF = true := by
  unfold parseUrl parseUrlTail at h
  split at h
  · cases h
  · split at h
    · cases h
    · split at h
      · next hcheck =>
        split at h
        · exact parseWithScheme_WF _ _ u (by
            simp only [Bool.and_eq_true] at hcheck
            exact hcheck.2) h
        · cases h
      · cases h

theorem trySetHost_WF (u : ModelUrl) (h : String) (hwf : u.WF = true) :
    (u.trySetHost h).WF = true := by
  unfold ModelUrl.trySetHost
  cases hd : parseHostChars h.data with
  | none => exact hwf
  | some h2 =>
    unfold ModelUrl.WF at hwf ⊢
    simp only [Bool.and_eq_true] at hwf ⊢
    obtain ⟨⟨⟨⟨hs, _⟩, hp⟩, hq⟩, hf⟩ := hwf
    exact ⟨⟨⟨⟨hs, parseHostChars_printable _ _ hd⟩, hp⟩, hq⟩, hf⟩

theorem setQuery_WF (u : ModelUrl) (ps : List (String × String)) (hwf : u.WF = true) :
    ({ u with query := some (renderPairs ps) } : ModelUrl).WF = true := by
  unfold ModelUrl.WF at hwf ⊢
  simp only [Bool.and_eq_true] at hwf ⊢
  obtain ⟨⟨⟨⟨hs, hh⟩, hp⟩, _⟩, hf⟩ := hwf
  exact ⟨⟨⟨⟨hs, hh⟩, hp⟩, printable_renderPairs ps⟩, hf⟩

theorem normalizeStepUrl_WF (url0 : ModelUrl) (hwf : url0.WF = true) :
    (normalizeStepUrl url0).WF = true := by
  unfold normalizeStepUrl
  dsimp only
  apply setQuery_WF
  split
  · split
    · split
      · next u2 hu2 => exact parseUrl_WF _ u2 hu2
      · exact hwf
    · exact hwf
  · split
    · exact trySetHost_WF url0 _ hwf
    · split
      · exact trySetHost_WF url0 _ hwf
      · exact hwf

theorem normalizeParsed_fixed (url0 : ModelUrl) (hwf : url0.WF = true) :
    normalizeUrl (normalizeParsed url0) = normalizeParsed url0 := by
  have hwf2 := normalizeStepUrl_WF url0 hwf
  unfold normalizeParsed
  have hprint : ∀ c ∈ trimEndBy (fun c => c = '/')
      (afterLastSep (normalizeStepUrl url0).renderChars), printableChar c = true := by
    intro c hc
    exact renderChars_printable _ hwf2 c
      (mem_afterLastSep _ c (mem_trimEndBy _ _ c hc))
  have hsep : hasSep (trimEndBy (fun c => c = '/')
      (afterLastSep (normalizeStepUrl url0).renderChars)) = false := by
    obtain ⟨zs, hz⟩ := trimEndBy_append (fun c => c = '/')
      (afterLastSep (normalizeStepUrl url0).renderChars)
    have h1 : hasSep (afterLastSep (normalizeStepUrl url0).renderChars) = false :=
      hasSep_afterLastSep _
    rw [hz] at h1
    exact hasSep_of_prefix _ _ h1
  have hnone : parseUrl ⟨trimEndBy (fun c => c = '/')
      (afterLastSep (normalizeStepUrl url0).renderChars)⟩ = none :=
    parseUrl_eq_none_of_printable_noSep _ hprint hsep
  unfold normalizeUrl
  rw [hnone]
  exact rustTrim_eq_self _ (fun c hc => printable_not_ws c (hprint c hc))


/-! ## Lemmas about the manager model -/

theorem processQueue_jobs (cfg : GeneralConfig) (s : ManagerState) :
    (processQueue cfg s).1.jobs = s.jobs := rfl

theorem processQueue_persistenceRegistry (cfg : GeneralConfig) (s : ManagerState) :
    (processQueue cfg s).1.persistenceRegistry = s.persistenceRegistry := rfl

theorem processQueueAux_bounds (cfg : GeneralConfig) (jobs : List (Nat × Job))
    (net inst : Nat) (q : List QueuedJob)
    (h1 : net ≤ cfg.maxConcurrentDownloads) (h2 : inst ≤ cfg.maxTotalInstances) :
    (processQueueAux cfg jobs net inst q).1 ≤ cfg.maxConcurrentDownloads ∧
    (processQueueAux cfg jobs net inst q).2.1 ≤ cfg.maxTotalInstances := by
  induction q generalizing net inst with
  | nil => exact ⟨h1, h2⟩
  | cons j rest ih =>
    simp only [processQueueAux]
    split
    · next hcond =>
      split
      · exact ih net inst h1 h2
      · exact ih (net + 1) (inst + 1) hcond.1 hcond.2
    · exact ⟨h1, h2⟩

/-- The two concurrency counters, bounded by the configured limits. -/
def countersBounded (cfg : GeneralConfig) (s : ManagerState) : Prop :=
  s.activeNetworkJobs ≤ cfg.maxConcurrentDownloads ∧
  s.activeProcessInstances ≤ cfg.maxTotalInstances

theorem processQueue_bounds (cfg : GeneralConfig) (s : ManagerState)
    (h : countersBounded cfg s) : countersBounded cfg (processQueue cfg s).1 :=
  processQueueAux_bounds cfg s.jobs s.activeNetworkJobs s.activeProcessInstances s.queue h.1 h.2

theorem resumeJob_counters (s : ManagerState) (job : QueuedJob) :
    (resumeJob s job).activeNetworkJobs = s.activeNetworkJobs ∧
    (resumeJob s job).activeProcessInstances = s.activeProcessInstances := by
  unfold resumeJob
  split
  · exact ⟨rfl, rfl⟩
  · dsimp only
    split <;> exact ⟨rfl, rfl⟩

theorem resumeFold_counters (l : List QueuedJob) (s : ManagerState) :
    (resumeFold s l).1.activeNetworkJobs = s.activeNetworkJobs ∧
    (resumeFold s l).1.activeProcessInstances = s.activeProcessInstances := by
  induction l generalizing s with
  | nil => exact ⟨rfl, rfl⟩
  | cons j rest ih =>
    simp only [resumeFold]
    split
    · exact ih s
    · have h1 := ih (resumeJob s j)
      have h2 := resumeJob_counters s j
      exact ⟨h1.1.trans h2.1, h1.2.trans h2.2⟩

theorem handleMessage_bounds (cfg : GeneralConfig) (s : ManagerState) (msg : JobMessage)
    (h : countersBounded cfg s) : countersBounded cfg (handleMessage cfg s msg).1 := by
  obtain ⟨h1, h2⟩ := h
  cases msg with
  | addJob job =>
    simp only [handleMessage]
    split
    · exact ⟨h1, h2⟩
    · split
      · exact ⟨h1, h2⟩
      · exact processQueue_bounds cfg _ ⟨h1, h2⟩
  | cancelJob id => exact ⟨h1, h2⟩
  | processStarted id pid =>
    simp only [handleMessage]
    split
    · split
      · exact ⟨h1, h2⟩
      · exact ⟨h1, h2⟩
    · exact ⟨h1, h2⟩
  | updateProgress id pct sp eta fn ph =>
    simp only [handleMessage]
    split
    · split
      · exact ⟨h1, h2⟩
      · exact ⟨h1, h2⟩
    · exact ⟨h1, h2⟩
  | jobCompleted id path =>
    simp only [handleMessage]
    split
    · exact ⟨h1, h2⟩
    · exact ⟨h1, h2⟩
  | jobError id payload =>
    simp only [handleMessage]
    split
    · exact ⟨h1, h2⟩
    · split <;> exact ⟨h1, h2⟩
  | workerFinished =>
    simp only [handleMessage]
    refine processQueue_bounds cfg _ ?_
    constructor
    · dsimp only
      split <;> omega
    · dsimp only
      split <;> omega
  | getPendingCount disk => exact ⟨h1, h2⟩
  | resumePending disk =>
    simp only [handleMessage]
    refine processQueue_bounds cfg _ ?_
    have hc := resumeFold_counters (disk.getD []) s
    exact ⟨hc.1 ▸ h1, hc.2 ▸ h2⟩
  | clearPending => exact ⟨h1, h2⟩
  | syncState => exact ⟨h1, h2⟩

/-- Resuming jobs from disk never disturbs an id already present in the job
table. -/
theorem resumeFold_preserves_present (l : List QueuedJob) (s : ManagerState)
    (id : Nat) (j : Job) (hj : lookupEntry s.jobs id = some j) :
    lookupEntry (resumeFold s l).1.jobs id = some j := by
  induction l generalizing s with
  | nil => exact hj
  | cons hd rest ih =>
    simp only [resumeFold]
    split
    · exact ih s hj
    · next habs =>
      refine ih (resumeJob s hd) ?_
      have hne : hd.id ≠ id := by
        intro he
        rw [he, hj] at habs
        simp at habs
      unfold resumeJob
      split
      · exact hj
      · dsimp only
        repeat' split
        all_goals simp [lookupEntry_insertEntry, hne, hj]

/-- `process_queue` never hands a job whose table status is `cancelled` to a
worker: such jobs are popped and dropped. -/
theorem processQueueAux_spawns_ne (cfg : GeneralConfig) (jobs : List (Nat × Job)) (id : Nat)
    (hc : (lookupEntry jobs id).map Job.status = some JobStatus.cancelled)
    (net inst : Nat) (q : List QueuedJob) :
    ∀ job ∈ (processQueueAux cfg jobs net inst q).2.2.2, job.id ≠ id := by
  induction q generalizing net inst with
  | nil => intro job h; simp [processQueueAux] at h
  | cons j rest ih =>
    intro job h
    simp only [processQueueAux] at h
    split at h
    · split at h
      · exact ih net inst job h
      · next hnc =>
        simp only [List.mem_cons] at h
        rcases h with h | h
        · subst h
          intro he
          rw [he] at hnc
          exact hnc hc
        · exact ih (net + 1) (inst + 1) job h
    · simp at h

/-- A job whose table status is `cancelled` keeps that status across every
handled message. -/
theorem handleMessage_preserves_cancelled (cfg : GeneralConfig) (s : ManagerState)
    (id : Nat) (j : Job) (hj : lookupEntry s.jobs id = some j)
    (hc : j.status = JobStatus.cancelled) (msg : JobMessage) :
    (lookupEntry (handleMessage cfg s msg).1.jobs id).map Job.status
      = some JobStatus.cancelled := by
  cases msg with
  | addJob job =>
    simp only [handleMessage]
    split
    · simp [hj, hc]
    · split
      · simp [hj, hc]
      · next hns _ =>
        have hne : job.id ≠ id := by
          intro he
          rw [he, hj] at hns
          simp at hns
        dsimp only
        rw [processQueue_jobs]
        simp [lookupEntry_insertEntry, hne, hj, hc]
  | cancelJob id2 =>
    simp only [handleMessage]
    rw [lookupEntry_updateEntry]
    by_cases h : id2 = id <;> simp [h, hj, hc]
  | processStarted id2 pid =>
    simp only [handleMessage]
    cases hl : lookupEntry s.jobs id2 with
    | none => simp [hj, hc]
    | some job2 =>
      by_cases hs : job2.status = JobStatus.cancelled
      · simp [hs, hj, hc]
      · have hne : id2 ≠ id := by
          intro he
          rw [he, hj] at hl
          cases hl
          exact hs hc
        simp [hs, lookupEntry_updateEntry, hne, hj, hc]
  | updateProgress id2 pct sp eta fn ph =>
    simp only [handleMessage]
    cases hl : lookupEntry s.jobs id2 with
    | none => simp [hj, hc]
    | some job2 =>
      by_cases hs : job2.status = JobStatus.cancelled
      · simp [hs, hj, hc]
      · have hne : id2 ≠ id := by
          intro he
          rw [he, hj] at hl
          cases hl
          exact hs hc
        simp [hs, lookupEntry_updateEntry, hne, hj, hc]
  | jobCompleted id2 path =>
    simp only [handleMessage]
    split
    · simp [hj, hc]
    · next hnc =>
      have hne : id2 ≠ id := by
        intro he
        rw [he, hj] at hnc
        simp [hc] at hnc
      simp [lookupEntry_updateEntry, hne, hj, hc]
  | jobError id2 payload =>
    simp only [handleMessage]
    split
    · simp [hj, hc]
    · next hnc =>
      have hne : id2 ≠ id := by
        intro he
        rw [he, hj] at hnc
        simp [hc] at hnc
      dsimp only
      split <;> simp [lookupEntry_updateEntry, hne, hj, hc]
  | workerFinished =>
    simp only [handleMessage]
    rw [processQueue_jobs]
    simp [hj, hc]
  | getPendingCount disk => simp [handleMessage, hj, hc]
  | resumePending disk =>
    simp only [handleMessage]
    rw [processQueue_jobs]
    rw [resumeFold_preserves_present (disk.getD []) s id j hj]
    simp [hc]
  | clearPending => simp [handleMessage, hj, hc]
  | syncState => simp [handleMessage, hj, hc]

/-! ## Claim theorems: manager -/

/-- **C1.** Cancellation is absorbing in the job manager: once a job's table
status is `Cancelled`, every subsequently handled message leaves it
`Cancelled`; the four worker-originated messages (`ProcessStarted`,
`UpdateProgress`, `JobCompleted`, `JobError`) targeted at the cancelled id
leave the manager state unchanged (in particular the job-table entry), with
`JobCompleted`/`JobError` emitting no complete/error event; and a
`process_queue` pass preserves the entry and never spawns a worker for the
cancelled id. -/
theorem cancelled_is_absorbing (cfg : GeneralConfig) (s : ManagerState) (id : Nat) (j : Job)
    (hj : lookupEntry s.jobs id = some j) (hc : j.status = JobStatus.cancelled) :
    (∀ msg : JobMessage,
      (lookupEntry (handleMessage cfg s msg).1.jobs id).map Job.status
        = some JobStatus.cancelled)
    ∧ (∀ pid, handleMessage cfg s (.processStarted id pid)
        = (s, [ManagerEvent.killSignal pid]))
    ∧ (∀ pct sp eta fn ph,
        handleMessage cfg s (.updateProgress id pct sp eta fn ph) = (s, []))
    ∧ (∀ path, handleMessage cfg s (.jobCompleted id path) = (s, []))
    ∧ (∀ payload, handleMessage cfg s (.jobError id payload) = (s, []))
    ∧ lookupEntry (processQueue cfg s).1.jobs id = some j
    ∧ (∀ ev ∈ (processQueue cfg s).2, ∀ job, ev = ManagerEvent.spawnWorker job →
        job.id ≠ id) := by
  refine ⟨handleMessage_preserves_cancelled cfg s id j hj hc, ?_, ?_, ?_, ?_, ?_, ?_⟩
  · intro pid
    simp [handleMessage, hj, hc]
  · intro pct sp eta fn ph
    simp [handleMessage, hj, hc]
  · intro path
    simp [handleMessage, hj, hc]
  · intro payload
    simp [handleMessage, hj, hc]
  · rw [processQueue_jobs]; exact hj
  · intro ev hev job hsp
    subst hsp
    have hmem : job ∈ (processQueueAux cfg s.jobs s.activeNetworkJobs
        s.activeProcessInstances s.queue).2.2.2 := by
      simp only [processQueue, List.mem_map] at hev
      obtain ⟨job2, hm, he⟩ := hev
      cases he
      exact hm
    exact processQueueAux_spawns_ne cfg s.jobs id (by rw [hj]; simp [hc])
      s.activeNetworkJobs s.activeProcessInstances s.queue job hmem

/-- Witness for C1 at a concrete state holding a cancelled job. -/
theorem cancelled_is_absorbing_witness :
    (handleMessage {} { jobs := [(1, { Job.new 1 "https://example.com/v" with
        status := JobStatus.cancelled })] } (.jobCompleted 1 "out.mp4")
      = ({ jobs := [(1, { Job.new 1 "https://example.com/v" with
          status := JobStatus.cancelled })] }, []))
    ∧ (handleMessage {} { jobs := [(1, { Job.new 1 "https://example.com/v" with
        status := JobStatus.cancelled })] } (.jobError 1 { jobId := 1, error := "boom" })
      = ({ jobs := [(1, { Job.new 1 "https://example.com/v" with
          status := JobStatus.cancelled })] }, [])) := by
  have h := cancelled_is_absorbing {}
    { jobs := [(1, { Job.new 1 "https://example.com/v" with
        status := JobStatus.cancelled })] } 1
    { Job.new 1 "https://example.com/v" with status := JobStatus.cancelled }
    (by rfl) (by rfl)
  exact ⟨h.2.2.2.1 "out.mp4", h.2.2.2.2.1 { jobId := 1, error := "boom" }⟩

/-- **C2.** For a fixed configuration, every state reachable by the manager
actor from its initial state keeps `active_network_jobs` at most
`max_concurrent_downloads` and `active_process_instances` at most
`max_total_instances`. -/
theorem reachable_counters_bounded (cfg : GeneralConfig) (s : ManagerState)
    (h : Reachable cfg s) :
    s.activeNetworkJobs ≤ cfg.maxConcurrentDownloads ∧
    s.activeProcessInstances ≤ cfg.maxTotalInstances := by
  induction h with
  | init => exact ⟨Nat.zero_le _, Nat.zero_le _⟩
  | step msg h ih => exact handleMessage_bounds _ _ msg ih

/-- Witness for C2 at a concrete reachable state (one admitted job under the
default limits: both counters are 1). -/
theorem reachable_counters_bounded_witness :
    (handleMessage {} initialManagerState (.addJob { id := 1, url := "https://example.com/v" })).1.activeNetworkJobs ≤
      GeneralConfig.maxConcurrentDownloads {} ∧
    (handleMessage {} initialManagerState (.addJob { id := 1, url := "https://example.com/v" })).1.activeProcessInstances ≤
      GeneralConfig.maxTotalInstances {} :=
  reachable_counters_bounded {} _ (Reachable.step _ Reachable.init)

/-- **C10.** Handling `CancelJob{id}` sets the status of a job present in the
table to `Cancelled` and bumps its sequence id regardless of its current
status (the `Option.map` form covers every present status, including
`Completed` and `Error`, and the absent case), removes the id from the
persistence registry, and emits the `download-cancelled` event even when the
id is not in the job table. -/
theorem cancel_job_spec (cfg : GeneralConfig) (s : ManagerState) (id : Nat) :
    lookupEntry (handleMessage cfg s (.cancelJob id)).1.jobs id
      = (lookupEntry s.jobs id).map (fun j =>
          { j with status := JobStatus.cancelled, sequenceId := j.sequenceId + 1 })
    ∧ lookupEntry (handleMessage cfg s (.cancelJob id)).1.persistenceRegistry id = none
    ∧ ManagerEvent.emitCancelled id ∈ (handleMessage cfg s (.cancelJob id)).2 := by
  refine ⟨?_, ?_, ?_⟩
  · simp [handleMessage, lookupEntry_updateEntry]
  · simp [handleMessage, lookupEntry_eraseEntry]
  · simp only [handleMessage]
    exact List.mem_append.mpr (Or.inr (by simp))

/-! ## Claim theorems: URL normalisation -/

/-- **C6 counterexample.** `normalize_url` is not idempotent on every input:
for `u = "\u00A0https://example.com/x"` (a URL preceded by a no-break space,
which the WHATWG URL parser rejects — it strips only C0 controls and space —
while Rust `str::trim` removes it), the first pass returns the trimmed raw
string `"https://example.com/x"`, and the second pass parses that and returns
`"example.com/x?"`. -/
theorem normalize_url_not_idempotent :
    normalizeUrl (normalizeUrl "\u00A0https://example.com/x")
      ≠ normalizeUrl "\u00A0https://example.com/x" := by decide

/-- **C6 (amended).** `normalize_url` is idempotent on every input that the
URL parser accepts, and on every input whose Rust-trimmed form the parser
also rejects (the counterexample lives exactly in the gap: parse fails on the
raw string but succeeds after trimming); and it realises the declared
rewrite: `normalize_url("https://www.youtube.com/watch?v=abc&feature=share&si=xyz")
= "youtube.com/watch?v=abc"`. -/
theorem normalize_url_idempotent_amended (u : String)
    (h : (parseUrl u).isSome = true ∨ parseUrl (rustTrim u) = none) :
    normalizeUrl (normalizeUrl u) = normalizeUrl u
    ∧ normalizeUrl "https://www.youtube.com/watch?v=abc&feature=share&si=xyz"
      = "youtube.com/watch?v=abc" := by
  refine ⟨?_, by decide⟩
  cases hp : parseUrl u with
  | some url0 =>
    have hwf := parseUrl_WF u url0 hp
    have h1 : normalizeUrl u = normalizeParsed url0 := by
      unfold normalizeUrl
      rw [hp]
    rw [h1]
    exact normalizeParsed_fixed url0 hwf
  | none =>
    rcases h with h | h
    · rw [hp] at h
      simp at h
    · have h1 : normalizeUrl u = rustTrim u := by
        unfold normalizeUrl
        rw [hp]
      rw [h1]
      have h2 : normalizeUrl (rustTrim u) = rustTrim (rustTrim u) := by
        unfold normalizeUrl
        rw [h]
      rw [h2]
      exact rustTrim_idem u

/-- Witness for C6 (amended) at a parseable input. -/
theorem normalize_url_idempotent_amended_witness :
    normalizeUrl (normalizeUrl "https://example.com/x")
      = normalizeUrl "https://example.com/x"
    ∧ normalizeUrl "https://www.youtube.com/watch?v=abc&feature=share&si=xyz"
      = "youtube.com/watch?v=abc" :=
  normalize_url_idempotent_amended "https://example.com/x" (Or.inl (by decide))

/-! ## Claim theorems: start_download deduplication -/

/-- **C3 counterexample.** With the history file holding `normalise(u2)` and
the probe returning `{u1, u2, u3}`, `start_download` (not forced, no
whitelist) skips nothing: `load_history` compares raw trimmed lines against
the entry URL verbatim, and `u2` differs from its canonical form, so the
response has 3 job ids and `skipped_count = 0` — not the claimed 2 ids,
`skipped_count = 1`, `skipped_urls = [u2]`. -/
theorem start_download_dedup_counterexample :
    (startDownload {} {} initialManagerState "https://example.com/list" ""
      none none
      [{ url := "https://www.youtube.com/watch?v=u1" },
       { url := "https://www.youtube.com/watch?v=u2" },
       { url := "https://www.youtube.com/watch?v=u3" }]
      (normalizeUrl "https://www.youtube.com/watch?v=u2") 1).map
        (fun r => (r.1.jobIds.length, r.1.skippedCount, r.1.totalFound, r.1.skippedUrls))
      = .ok (3, 0, 3, []) := by rfl

/-- **C3 (amended).** In `start_download` with `force_download` unset and no
whitelist, a probed entry is skipped (counted and listed) if and only if the
history file contains that entry's URL **verbatim** as a trimmed line (no
normalisation); in particular, when the history holds the raw `u2` itself
and the probe returns `{u1, u2, u3}`, the response has 2 job ids,
`skipped_count = 1`, `total_found = 3` and `skipped_urls = [u2]`. -/
theorem start_download_dedup_amended :
    (∀ (cfg : GeneralConfig) (opts : DownloadOptions) (file : String)
        (st : ManagerState) (nextId : Nat) (entries : List PlaylistEntry),
      (startDownloadLoop cfg opts (loadHistory file) false none st nextId
          entries).skippedUrls
        = (entries.filter
            (fun e => (loadHistory file).contains e.url)).map PlaylistEntry.url)
    ∧ (startDownload {} {} initialManagerState "https://example.com/list" ""
        none none
        [{ url := "https://www.youtube.com/watch?v=u1" },
         { url := "https://www.youtube.com/watch?v=u2" },
         { url := "https://www.youtube.com/watch?v=u3" }]
        "https://www.youtube.com/watch?v=u2" 1).map
          (fun r => (r.1.jobIds.length, r.1.skippedCount, r.1.totalFound, r.1.skippedUrls))
        = .ok (2, 1, 3, ["https://www.youtube.com/watch?v=u2"]) := by
  constructor
  · intro cfg opts file st nextId entries
    induction entries generalizing st nextId with
    | nil => rfl
    | cons e rest ih =>
      by_cases hc : e.url ∈ loadHistory file
      · simp [startDownloadLoop, List.filter_cons, hc, ih]
      · have hc2 : (loadHistory file).contains e.url = false := by
          simpa using hc
        simp only [startDownloadLoop, List.filter_cons, hc2, Bool.not_false,
          Bool.true_and, Bool.false_eq_true, if_false]
        split
        · simp [ih]
        · simp [ih]
  · rfl

/-! ## Claim theorems: transport chunk retry and cleanup -/

theorem chunkRetryLoop_le (outcome : Nat → Bool) :
    ∀ (fuel : Nat) (p : RetryPolicy) (i : Nat),
      (chunkRetryLoop fuel p outcome i).1 ≤ i + fuel := by
  intro fuel
  induction fuel with
  | zero => intro p i; simp [chunkRetryLoop]
  | succ f ih =>
    intro p i
    simp only [chunkRetryLoop]
    split
    · omega
    · split
      · rename_i r heq
        have := ih r.2 (i + 1)
        omega
      · omega

/-- **C4 counterexample.** A chunk is not retried up to 10 times, and chunk
staging files do not survive a permanent chunk failure: with attempts 0-5
failing and attempt 6 succeeding (which a 10-attempt policy would reach),
the chunk worker stops after 6 attempts and fails; the failing run then
returns the `Validation` error with every part file of the run deleted by
`cleanup_parts`. -/
theorem chunk_retry_cleanup_counterexample :
    chunkWorker (fun i => 6 ≤ i) = (6, false)
    ∧ (downloadConcurrent { files := [] } "tool" 7 41943040
        (fun i _ => i ≠ 0) (fun _ => 1000)).2
        = .validation "One or more chunks failed"
    ∧ (downloadConcurrent { files := [] } "tool" 7 41943040
        (fun i _ => i ≠ 0) (fun _ => 1000)).1.files = [] := by
  refine ⟨by decide, by decide, by decide⟩

/-- **C4 (amended).** In the transport engine's concurrent mode each chunk is
attempted at most 6 times (`RetryPolicy::new(5)`: one initial attempt plus
at most 5 retries), and when some chunk permanently fails,
`download_concurrent` runs `cleanup_parts` — deleting every staging file
whose name contains this run's `part.<timestamp>.` pattern — and returns a
`Validation` error, so partial chunk files do **not** remain for a later
attempt. -/
theorem chunk_retry_cleanup_amended (outcome : Nat → Bool)
    (fs : TransportFs) (target : String) (timestamp totalSize : Nat)
    (outcomes : Nat → Nat → Bool) (written : Nat → Nat)
    (hfail : ∃ j, j < 4 ∧ (chunkWorker (outcomes j)).2 = false) :
    (chunkWorker outcome).1 ≤ 6
    ∧ (downloadConcurrent fs target timestamp totalSize outcomes written).2
        = .validation "One or more chunks failed"
    ∧ (∀ f ∈ (downloadConcurrent fs target timestamp totalSize outcomes
          written).1.files,
        strContains f.1 (partPattern timestamp) = false) := by
  have hfailed : (computeChunks totalSize 4).any
      (fun c => ! (chunkWorker (outcomes c.index)).2) = true := by
    obtain ⟨j, hj, hjf⟩ := hfail
    unfold computeChunks
    dsimp only
    refine List.any_eq_true.mpr
      ⟨_, List.mem_map_of_mem _ (List.mem_range.mpr hj), ?_⟩
    show (! (chunkWorker (outcomes j)).2) = true
    rw [hjf]
    rfl
  refine ⟨?_, ?_, ?_⟩
  · have := chunkRetryLoop_le outcome 6 (RetryPolicy.new 5) 0
    simpa [chunkWorker] using this
  · unfold downloadConcurrent
    simp only [hfailed, if_true]
  · unfold downloadConcurrent
    simp only [hfailed, if_true]
    intro f hf
    unfold cleanupParts at hf
    simp only [List.mem_filter] at hf
    simpa using hf.2

/-- Witness for C4 (amended): chunk 2 failing every attempt. -/
theorem chunk_retry_cleanup_amended_witness :
    (chunkWorker (fun _ => false)).1 ≤ 6
    ∧ (downloadConcurrent { files := [("keep", 5)] } "tool" 7 41943040
        (fun _ _ => false) (fun _ => 1000)).2
        = .validation "One or more chunks failed"
    ∧ (∀ f ∈ (downloadConcurrent { files := [("keep", 5)] } "tool" 7 41943040
          (fun _ _ => false) (fun _ => 1000)).1.files,
        strContains f.1 (partPattern 7) = false) :=
  chunk_retry_cleanup_amended (fun _ => false) { files := [("keep", 5)] }
    "tool" 7 41943040 (fun _ _ => false) (fun _ => 1000)
    ⟨2, by decide, by decide⟩

/-! ## Claim theorems: chunk staging and resume -/

/-- **C5 counterexample.** With 100 bytes already present in the chunk's
staging file, the worker does not request `bytes=(start+100)-end` as the
claim states: it requests the full `bytes=start-end`, and the staging file
is opened with truncate (not append), so the staged bytes are discarded. -/
theorem chunk_resume_counterexample :
    chunkRangeHeader { index := 0, start := 0, endByte := 10485759, len := 10485760 }
      ≠ specResumeRangeHeader
          { index := 0, start := 0, endByte := 10485759, len := 10485760 } 100
    ∧ chunkOpenSpec.append = false
    ∧ chunkOpenSpec.truncate = true := by
  refine ⟨by decide, rfl, rfl⟩

/-- **C5 (amended).** In concurrent mode each chunk's staging file is opened
with `create + write + truncate` (never append), and the worker always
requests the full range `bytes=start-end` (the spec's resume request with
`existing = 0`); the bytes written by an attempt are independent of whatever
a previous attempt staged, so a re-run re-downloads every chunk in full. -/
theorem chunk_resume_amended (chunk : Chunk) (p1 p2 : Nat) (streamed : List Nat) :
    chunkRangeHeader chunk = specResumeRangeHeader chunk 0
    ∧ chunkOpenSpec
        = { create := true, write := true, truncate := true, append := false }
    ∧ downloadChunkRun chunk p1 streamed = downloadChunkRun chunk p2 streamed := by
  refine ⟨?_, rfl, rfl⟩
  unfold chunkRangeHeader specResumeRangeHeader
  rw [Nat.add_zero]

/-! ## Claim theorems: move conflict -/

/-- **C7.** Whenever the destination exists, `robust_move_file` returns
`AlreadyExists` without renaming, copying or deleting anything (the file
system is returned unchanged), and the worker's finalisation then emits
`FileConflict` carrying the staged path and the destination path and skips
the stage-directory cleanup, leaving the staged file and stage directory in
place. -/
theorem robust_move_conflict (fs : WorkerFs) (renameOk : Nat → Bool) (copyOk : Bool)
    (src dest : String) (stageFiles : List String)
    (hdest : fs.files.contains dest = true) :
    robustMoveFile 5 fs renameOk copyOk src dest 0 = (fs, some .alreadyExists)
    ∧ workerFinalize fs renameOk copyOk src dest stageFiles
        = (fs, [.progressPhase "Moving to Library", .conflictEv src dest]) := by
  have h1 : robustMoveFile 5 fs renameOk copyOk src dest 0
      = (fs, some .alreadyExists) := by
    have hd : dest ∈ fs.files := by simpa using hdest
    unfold robustMoveFile
    simp [hd]
  refine ⟨h1, ?_⟩
  unfold workerFinalize
  rw [h1]

/-- Witness for C7 at a concrete file system where the destination exists. -/
theorem robust_move_conflict_witness :
    robustMoveFile 5 { files := ["/lib/a.mp4", "/tmp/j/a.mp4"] } (fun _ => true)
        true "/tmp/j/a.mp4" "/lib/a.mp4" 0
      = ({ files := ["/lib/a.mp4", "/tmp/j/a.mp4"] }, some .alreadyExists)
    ∧ workerFinalize { files := ["/lib/a.mp4", "/tmp/j/a.mp4"] } (fun _ => true)
        true "/tmp/j/a.mp4" "/lib/a.mp4" ["/tmp/j/a.mp4"]
      = ({ files := ["/lib/a.mp4", "/tmp/j/a.mp4"] },
         [.progressPhase "Moving to Library",
          .conflictEv "/tmp/j/a.mp4" "/lib/a.mp4"]) :=
  robust_move_conflict { files := ["/lib/a.mp4", "/tmp/j/a.mp4"] } (fun _ => true)
    true "/tmp/j/a.mp4" "/lib/a.mp4" ["/tmp/j/a.mp4"] (by decide)

/-! ## Claim theorems: filesystem-name retry -/

theorem workerRetryLoop_len_restrict (cfgw : WorkerConfig) (job : QueuedJob)
    (hr : job.restrictFilenames = true) (attempts : List AttemptOutcome) :
    (workerRetryLoop cfgw job attempts).1.length ≤ 1 := by
  cases attempts with
  | nil => simp [workerRetryLoop]
  | cons a rest =>
    simp only [workerRetryLoop, hr]
    split
    · simp
    · simp

/-- **C8.** The worker re-invokes the tool at most once per job: at most two
invocations in total, at most one when `restrict_filenames` was already set;
the retry happens exactly when the exit was non-zero, the filesystem-naming
regex matches the captured output, and `restrict_filenames` was not already
set — and then the single retry runs with `restrict_filenames = true`, whose
argument list adds `--restrict-filenames --trim-filenames 200`; any other
non-zero exit (including a non-zero exit of the retry itself) produces a
`JobError` instead of another invocation. -/
theorem worker_retry_once (cfgw : WorkerConfig) (job : QueuedJob)
    (attempts : List AttemptOutcome) :
    (workerRetryLoop cfgw job attempts).1.length ≤ 2
    ∧ (job.restrictFilenames = true →
        (workerRetryLoop cfgw job attempts).1.length ≤ 1)
    ∧ (∀ (a : AttemptOutcome) (rest : List AttemptOutcome),
        a.exitSuccess = false → job.restrictFilenames = false →
        filesystemErrorMatch a.logBlob = true →
        workerRetryLoop cfgw job (a :: rest)
          = (buildArgs cfgw job ::
              (workerRetryLoop cfgw { job with restrictFilenames := true } rest).1,
             (workerRetryLoop cfgw { job with restrictFilenames := true } rest).2))
    ∧ (∀ (a : AttemptOutcome) (rest : List AttemptOutcome),
        a.exitSuccess = false →
        (job.restrictFilenames = true ∨ filesystemErrorMatch a.logBlob = false) →
        workerRetryLoop cfgw job (a :: rest)
          = ([buildArgs cfgw job],
             [.errorEv (shortErrorMessage a.stderrBlob a.exitCode)]))
    ∧ (job.restrictFilenames = true →
        "--restrict-filenames" ∈ buildArgs cfgw job
        ∧ "--trim-filenames" ∈ buildArgs cfgw job
        ∧ "200" ∈ buildArgs cfgw job) := by
  refine ⟨?_, ?_, ?_, ?_, ?_⟩
  · cases attempts with
    | nil => simp [workerRetryLoop]
    | cons a rest =>
      simp only [workerRetryLoop]
      split
      · simp
      · split
        · have := workerRetryLoop_len_restrict cfgw
            { job with restrictFilenames := true } rfl rest
          simp only [List.length_cons]
          omega
        · simp
  · intro hr
    exact workerRetryLoop_len_restrict cfgw job hr attempts
  · intro a rest hex hr hm
    simp only [workerRetryLoop, hex, hr, hm]
    simp
  · intro a rest hex hcond
    rcases hcond with hr | hm
    · simp only [workerRetryLoop, hex, hr]
      simp
    · simp only [workerRetryLoop, hex, hm]
      simp
  · intro hr
    refine ⟨?_, ?_, ?_⟩ <;>
    · unfold buildArgs
      rw [hr]
      simp

/-- Witness for C8: a first non-zero exit with a matching log retries once
with restricted filenames; the retry's second non-zero exit emits the error. -/
theorem worker_retry_once_witness :
    workerRetryLoop {} ({ id := 1, url := "https://example.com/v" } : QueuedJob)
        [{ exitSuccess := false, logBlob := "ERROR: Invalid argument" },
         { exitSuccess := false, exitCode := some 1, stderrBlob := "boom" }]
      = (buildArgs {} ({ id := 1, url := "https://example.com/v" } : QueuedJob) ::
          (workerRetryLoop {}
            ({ ({ id := 1, url := "https://example.com/v" } : QueuedJob) with
                restrictFilenames := true })
            [{ exitSuccess := false, exitCode := some 1, stderrBlob := "boom" }]).1,
         (workerRetryLoop {}
            ({ ({ id := 1, url := "https://example.com/v" } : QueuedJob) with
                restrictFilenames := true })
            [{ exitSuccess := false, exitCode := some 1, stderrBlob := "boom" }]).2)
    ∧ "--restrict-filenames" ∈ buildArgs {}
        ({ ({ id := 1, url := "https://example.com/v" } : QueuedJob) with
            restrictFilenames := true }) := by
  constructor
  · exact (worker_retry_once {}
      ({ id := 1, url := "https://example.com/v" } : QueuedJob) []).2.2.1
      { exitSuccess := false, logBlob := "ERROR: Invalid argument" }
      [{ exitSuccess := false, exitCode := some 1, stderrBlob := "boom" }]
      rfl rfl (by decide)
  · exact ((worker_retry_once {}
      ({ ({ id := 1, url := "https://example.com/v" } : QueuedJob) with
          restrictFilenames := true }) []).2.2.2.2 rfl).1

/-! ## Claim theorems: probe fan-out -/

/-- **C9 counterexample.** The probe call sites are not throttled: a schedule
with four probe subprocesses simultaneously in flight is reachable,
exceeding the claimed bound of 3. -/
theorem probe_fanout_counterexample :
    ProbeReachable ⟨0, 4⟩ ∧ ¬ (4 ≤ 3) := by
  refine ⟨?_, by decide⟩
  have h1 := ProbeReachable.step ProbeReachable.init (ProbeStep.arrive 0 0)
  have h2 := ProbeReachable.step h1 (ProbeStep.arrive 1 0)
  have h3 := ProbeReachable.step h2 (ProbeStep.arrive 2 0)
  have h4 := ProbeReachable.step h3 (ProbeStep.arrive 3 0)
  have h5 := ProbeReachable.step h4 (ProbeStep.beginProbe 3 0)
  have h6 := ProbeReachable.step h5 (ProbeStep.beginProbe 2 1)
  have h7 := ProbeReachable.step h6 (ProbeStep.beginProbe 1 2)
  exact ProbeReachable.step h7 (ProbeStep.beginProbe 0 3)

/-- **C9 (amended).** No semaphore (of capacity 3 or any other) gates the
probe call sites: for every `n`, a state with `n` probe subprocesses
simultaneously in flight is reachable, so the number of in-flight probes is
bounded only by the number of concurrently executing commands. -/
theorem probe_fanout_amended (n : Nat) :
    ∃ s : ProbeState, ProbeReachable s ∧ s.inFlightProbes = n := by
  induction n with
  | zero => exact ⟨⟨0, 0⟩, ProbeReachable.init, rfl⟩
  | succ m ih =>
    obtain ⟨⟨w, p⟩, hs, hp⟩ := ih
    dsimp only at hp
    subst hp
    have h1 := ProbeReachable.step hs (ProbeStep.arrive w p)
    exact ⟨⟨w, p + 1⟩, ProbeReachable.step h1 (ProbeStep.beginProbe w p), rfl⟩

end MultiYtDlp
